import Mathlib

/-!
Shallow embedding of the MCYJ-Datapipeline core (`src/run_full_pipeline.py` and
`src/pdf_parsing/extract_pdf_text.py`), together with theorems checking its
natural-language specification.

Python dictionaries are modelled as association lists with in-place update
(`dictInsert`), CSV rows as string-valued dictionaries, and the external
collaborators (remote API, file downloader, PDF text extraction, the SHA-256
digest primitive, and the file system) as explicit function parameters, as the
specification treats them as interfaces.
-/

/-- Python `s.strip()`: drop leading and trailing whitespace. -/
def pyStrip (s : String) : String :=
  ((s.toList.dropWhile Char.isWhitespace).reverse.dropWhile Char.isWhitespace).reverse.asString

/-- Python `os.path.basename`: the component after the last slash. -/
def basename (p : String) : String :=
  ((p.toList.reverse.takeWhile (fun c => c ≠ '/')).reverse).asString

/-- Python `os.path.isabs`. -/
def isAbs (p : String) : Bool := p.toList.take 1 = ['/']

/-- Python `os.path.join` restricted to the two-argument form used by the pipeline. -/
def joinPath (d f : String) : String :=
  if isAbs f then f
  else if d = "" then f
  else if d.toList.getLast? = some '/' then d ++ f
  else d ++ "/" ++ f

/-- A Python dict with string keys, as an association list: an existing key is
updated in place, a new key is appended at the end (Python 3.7+ insertion
order semantics). -/
abbrev Dict (α : Type) := List (String × α)

/-- Python `d.get(k)` returning `none` when the key is absent. -/
def dictGet? {α : Type} : Dict α → String → Option α
  | [], _ => none
  | p :: d, k => if p.1 == k then some p.2 else dictGet? d k

/-- Python `d[k] = v`. -/
def dictInsert {α : Type} : Dict α → String → α → Dict α
  | [], k, v => [(k, v)]
  | p :: d, k, v => if p.1 == k then (k, v) :: d else p :: dictInsert d k v

/-- Python `d.keys()`. -/
def dictKeys {α : Type} (d : Dict α) : List String := d.map (fun p => p.1)

/-- Python `d.values()`. -/
def dictValues {α : Type} (d : Dict α) : List α := d.map (fun p => p.2)

theorem dictGet?_insert_self {α : Type} (d : Dict α) (k : String) (v : α) :
    dictGet? (dictInsert d k v) k = some v := by
  induction d with
  | nil => simp [dictInsert, dictGet?]
  | cons p d ih =>
    by_cases hp : p.1 == k
    · simp [dictInsert, dictGet?, hp]
    · simp [dictInsert, dictGet?, hp, ih]

theorem dictGet?_insert_other {α : Type} (d : Dict α) (k k' : String) (v : α)
    (h : k' ≠ k) :
    dictGet? (dictInsert d k v) k' = dictGet? d k' := by
  have h' : ¬ k = k' := fun hh => h hh.symm
  induction d with
  | nil => simp [dictInsert, dictGet?, h']
  | cons p d ih =>
    by_cases hp : p.1 = k
    · simp [dictInsert, dictGet?, hp, h']
    · simp [dictInsert, dictGet?, hp, ih]

theorem dictKeys_insert {α : Type} (d : Dict α) (k : String) (v : α) :
    dictKeys (dictInsert d k v) =
      if k ∈ dictKeys d then dictKeys d else dictKeys d ++ [k] := by
  induction d with
  | nil => simp [dictInsert, dictKeys]
  | cons p d ih =>
    by_cases hp : p.1 = k
    · simp [dictInsert, dictKeys, hp]
    · have hne : ¬ k = p.1 := fun hh => hp hh.symm
      have hcons : dictKeys (dictInsert (p :: d) k v) = p.1 :: dictKeys (dictInsert d k v) := by
        simp [dictInsert, dictKeys, hp]
      rw [hcons, ih]
      by_cases hk : k ∈ List.map (fun p => p.1) d
      · simp [dictKeys, hne, hk]
      · simp [dictKeys, hne, hk]

theorem dictKeys_nodup_insert {α : Type} (d : Dict α) (k : String) (v : α)
    (h : (dictKeys d).Nodup) : (dictKeys (dictInsert d k v)).Nodup := by
  rw [dictKeys_insert]
  by_cases hk : k ∈ dictKeys d
  · simpa [hk] using h
  · simp [hk, List.nodup_append, h]

theorem mem_dictKeys_insert {α : Type} (d : Dict α) (k k' : String) (v : α) :
    k' ∈ dictKeys (dictInsert d k v) ↔ k' ∈ dictKeys d ∨ k' = k := by
  rw [dictKeys_insert]
  by_cases hk : k ∈ dictKeys d
  · simp only [hk, if_true]
    constructor
    · exact fun h => Or.inl h
    · rintro (h | rfl)
      · exact h
      · exact hk
  · simp [hk]

theorem dictValues_insert_subset {α : Type} (d : Dict α) (k : String) (v v' : α)
    (h : v' ∈ dictValues (dictInsert d k v)) : v' = v ∨ v' ∈ dictValues d := by
  induction d with
  | nil => simpa [dictInsert, dictValues] using h
  | cons p d ih =>
    by_cases hp : p.1 == k
    · simp [dictInsert, dictValues, hp] at h
      rcases h with h | h
      · exact Or.inl h
      · exact Or.inr (by simp [dictValues, h])
    · simp [dictInsert, dictValues, hp] at h
      rcases h with h | h
      · exact Or.inr (by simp [dictValues, h])
      · rcases ih (by simpa [dictValues] using h) with h' | h'
        · exact Or.inl h'
        · exact Or.inr (by simp [dictValues]; exact Or.inr (by simpa [dictValues] using h'))

/-- A CSV/metadata row: a Python dict from column name to string value. -/
abbrev Row := Dict String

/-- Python `(row.get(k) or "")` before stripping: the stored value, or `""`
when the key is absent. -/
def rowGet (r : Row) (k : String) : String := (dictGet? r k).getD ""

theorem rowGet_insert_self (r : Row) (k v : String) :
    rowGet (dictInsert r k v) k = v := by
  simp [rowGet, dictGet?_insert_self]

theorem rowGet_insert_other (r : Row) (k k' v : String) (h : k' ≠ k) :
    rowGet (dictInsert r k v) k' = rowGet r k' := by
  simp [rowGet, dictGet?_insert_other r k k' v h]

/-- The file system together with the SHA-256 primitive: `pathExists` models
`os.path.exists`, and `sha256Hex` models the hex digest that
`compute_sha256`/`calculate_sha256` obtain by streaming the file at a path
(`hashlib.sha256(...).hexdigest()`, a 64-character hex string). -/
structure FS where
  pathExists : String → Bool
  sha256Hex : String → String

/-- Model of `compute_sha256` in `run_full_pipeline.py`: stream the file at a path and
return the hex digest of its bytes. -/
def compute_sha256 (fs : FS) (file_path : String) : String := fs.sha256Hex file_path

/-- Model of `resolve_local_file_path` in `run_full_pipeline.py`: try, in priority
order, the absolute `downloaded_path`, the relative `downloaded_path` joined
to the download directory, then `downloaded_filename` and
`generated_filename` joined to the download directory; return the first
candidate that is non-empty and exists on disk. -/
def resolve_local_file_path (fs : FS) (row : Row) (download_dir : String) : Option String :=
  let downloaded_path := pyStrip (rowGet row "downloaded_path")
  let downloaded_filename := pyStrip (rowGet row "downloaded_filename")
  let generated_filename := pyStrip (rowGet row "generated_filename")
  let candidates : List String :=
    (if downloaded_path ≠ "" then
      [if isAbs downloaded_path then downloaded_path
       else joinPath download_dir downloaded_path]
     else []) ++
    (if downloaded_filename ≠ "" then [joinPath download_dir downloaded_filename] else []) ++
    (if generated_filename ≠ "" then [joinPath download_dir generated_filename] else [])
  candidates.find? (fun c => c ≠ "" && fs.pathExists c)

/-- The effect of one iteration of the loop in `preflight_backfill_missing_sha`
on its row: rows with an empty `ContentDocumentId`, a non-empty `sha256`, or
no resolvable local file are skipped (`continue`); otherwise the six
path/hash/status fields are written as in the source. -/
def preflight_row (fs : FS) (download_dir : String) (row : Row) : Row :=
  if pyStrip (rowGet row "ContentDocumentId") = "" then row
  else if pyStrip (rowGet row "sha256") ≠ "" then row
  else
    match resolve_local_file_path fs row download_dir with
    | none => row
    | some local_path =>
      let r1 := dictInsert row "downloaded_path" local_path
      let r2 := dictInsert r1 "downloaded_filename" (basename local_path)
      let g := rowGet r2 "generated_filename"
      let r3 := dictInsert r2 "generated_filename"
        (if g = "" then basename local_path else g)
      let r4 := dictInsert r3 "sha256" (compute_sha256 fs local_path)
      let s := rowGet r4 "download_status"
      let r5 := dictInsert r4 "download_status"
        (if s = "" then "backfilled_preflight" else s)
      dictInsert r5 "id_match_checked" "true"

/-- Model of `preflight_backfill_missing_sha` in `run_full_pipeline.py`, as its effect
on the metadata row list (each row is mutated in place by `preflight_row`). -/
def preflight_backfill_missing_sha (fs : FS) (metadata_rows : List Row)
    (download_dir : String) : List Row :=
  metadata_rows.map (preflight_row fs download_dir)

theorem preflight_row_skip (fs : FS) (download_dir : String) (row : Row)
    (h : pyStrip (rowGet row "ContentDocumentId") = "" ∨
         pyStrip (rowGet row "sha256") ≠ "" ∨
         resolve_local_file_path fs row download_dir = none) :
    preflight_row fs download_dir row = row := by
  unfold preflight_row
  by_cases h1 : pyStrip (rowGet row "ContentDocumentId") = ""
  · simp [h1]
  · rw [if_neg h1]
    by_cases h2 : pyStrip (rowGet row "sha256") ≠ ""
    · simp [h2]
    · rw [if_neg h2]
      rcases h with h | h | h
      · exact absurd h h1
      · exact absurd h h2
      · rw [h]

theorem preflight_row_frame (fs : FS) (download_dir : String) (row : Row) (k : String)
    (hk : k ∉ ["downloaded_path", "downloaded_filename", "generated_filename",
               "sha256", "download_status", "id_match_checked"]) :
    rowGet (preflight_row fs download_dir row) k = rowGet row k := by
  simp only [List.mem_cons, List.not_mem_nil, or_false] at hk
  push_neg at hk
  obtain ⟨hk1, hk2, hk3, hk4, hk5, hk6⟩ := hk
  unfold preflight_row
  by_cases h1 : pyStrip (rowGet row "ContentDocumentId") = ""
  · simp [h1]
  · rw [if_neg h1]
    by_cases h2 : pyStrip (rowGet row "sha256") ≠ ""
    · simp [h2]
    · rw [if_neg h2]
      cases hres : resolve_local_file_path fs row download_dir with
      | none => rfl
      | some lp =>
        simp only [rowGet_insert_other _ _ _ _ hk1, rowGet_insert_other _ _ _ _ hk2,
          rowGet_insert_other _ _ _ _ hk3, rowGet_insert_other _ _ _ _ hk4,
          rowGet_insert_other _ _ _ _ hk5, rowGet_insert_other _ _ _ _ hk6]

theorem preflight_row_updates (fs : FS) (download_dir : String) (row : Row) (lp : String)
    (hid : pyStrip (rowGet row "ContentDocumentId") ≠ "")
    (hsha : pyStrip (rowGet row "sha256") = "")
    (hres : resolve_local_file_path fs row download_dir = some lp) :
    rowGet (preflight_row fs download_dir row) "downloaded_path" = lp ∧
    rowGet (preflight_row fs download_dir row) "downloaded_filename" = basename lp ∧
    rowGet (preflight_row fs download_dir row) "sha256" = compute_sha256 fs lp ∧
    rowGet (preflight_row fs download_dir row) "id_match_checked" = "true" ∧
    rowGet (preflight_row fs download_dir row) "download_status" =
      (if rowGet row "download_status" = "" then "backfilled_preflight"
       else rowGet row "download_status") := by
  unfold preflight_row
  rw [if_neg hid, if_neg (by simpa using hsha), hres]
  refine ⟨?_, ?_, ?_, ?_, ?_⟩
  · simp only [rowGet_insert_other _ _ _ _ (by decide : ("downloaded_path" : String) ≠ "id_match_checked"),
      rowGet_insert_other _ _ _ _ (by decide : ("downloaded_path" : String) ≠ "download_status"),
      rowGet_insert_other _ _ _ _ (by decide : ("downloaded_path" : String) ≠ "sha256"),
      rowGet_insert_other _ _ _ _ (by decide : ("downloaded_path" : String) ≠ "generated_filename"),
      rowGet_insert_other _ _ _ _ (by decide : ("downloaded_path" : String) ≠ "downloaded_filename"),
      rowGet_insert_self]
  · simp only [rowGet_insert_other _ _ _ _ (by decide : ("downloaded_filename" : String) ≠ "id_match_checked"),
      rowGet_insert_other _ _ _ _ (by decide : ("downloaded_filename" : String) ≠ "download_status"),
      rowGet_insert_other _ _ _ _ (by decide : ("downloaded_filename" : String) ≠ "sha256"),
      rowGet_insert_other _ _ _ _ (by decide : ("downloaded_filename" : String) ≠ "generated_filename"),
      rowGet_insert_self]
  · simp only [rowGet_insert_other _ _ _ _ (by decide : ("sha256" : String) ≠ "id_match_checked"),
      rowGet_insert_other _ _ _ _ (by decide : ("sha256" : String) ≠ "download_status"),
      rowGet_insert_self]
  · simp only [rowGet_insert_self]
  · simp only [rowGet_insert_self,
      rowGet_insert_other _ _ _ _ (by decide : ("download_status" : String) ≠ "id_match_checked"),
      rowGet_insert_other _ _ _ _ (by decide : ("download_status" : String) ≠ "sha256"),
      rowGet_insert_other _ _ _ _ (by decide : ("download_status" : String) ≠ "generated_filename"),
      rowGet_insert_other _ _ _ _ (by decide : ("download_status" : String) ≠ "downloaded_filename"),
      rowGet_insert_other _ _ _ _ (by decide : ("download_status" : String) ≠ "downloaded_path")]

/-- A concrete file system for the preflight counterexample: exactly one file
`d/f.pdf` exists, and hashing any path yields a fixed 64-character digest. -/
def preflightCexFS : FS :=
  { pathExists := fun p => p == "d/f.pdf",
    sha256Hex := fun _ => "e3b0c44298fc1c149afbf4c8996fb92427ae41e4649b934ca495991b7852b855" }

/-- A row with a non-empty external id, no hash, a resolvable local file, and a
pre-existing `download_status` left over from an interrupted run. -/
def preflightCexRow : Row :=
  [("ContentDocumentId", "DOC1"), ("sha256", ""),
   ("downloaded_filename", "f.pdf"), ("download_status", "downloaded")]

/-- C3, counterexample: `preflight_backfill_missing_sha` writes
`row["download_status"] = row.get("download_status") or "backfilled_preflight"`,
so a row that already carries a non-empty `download_status` (here
`"downloaded"`) keeps it even though its hash is backfilled; the claim that the
status field equals `backfilled_preflight` after Preflight fails on this row. -/
theorem preflight_status_counterexample :
    pyStrip (rowGet preflightCexRow "ContentDocumentId") ≠ "" ∧
    pyStrip (rowGet preflightCexRow "sha256") = "" ∧
    resolve_local_file_path preflightCexFS preflightCexRow "d" = some "d/f.pdf" ∧
    rowGet (preflight_row preflightCexFS "d" preflightCexRow) "sha256" ≠ "" ∧
    rowGet (preflight_row preflightCexFS "d" preflightCexRow) "download_status" ≠
      "backfilled_preflight" := by decide

/-- C3 (amended): for every row with a non-empty external id, an empty/missing
sha256 and a resolvable local file, after the Preflight pass the row's sha256
field is the (non-empty) SHA-256 digest of the resolved file and
`id_match_checked` is `"true"`; the status field equals
`backfilled_preflight` when the row had no prior `download_status`, and keeps
the prior value otherwise. -/
theorem preflight_backfill_completeness (fs : FS) (download_dir : String)
    (metadata_rows : List Row) (i : Nat) (hi : i < metadata_rows.length)
    (hid : pyStrip (rowGet metadata_rows[i] "ContentDocumentId") ≠ "")
    (hsha : pyStrip (rowGet metadata_rows[i] "sha256") = "")
    (lp : String)
    (hres : resolve_local_file_path fs metadata_rows[i] download_dir = some lp)
    (hhex : ∀ p, fs.sha256Hex p ≠ "") :
    ∃ r, (preflight_backfill_missing_sha fs metadata_rows download_dir)[i]? = some r ∧
      rowGet r "sha256" = compute_sha256 fs lp ∧
      rowGet r "sha256" ≠ "" ∧
      rowGet r "id_match_checked" = "true" ∧
      rowGet r "download_status" =
        (if rowGet metadata_rows[i] "download_status" = "" then "backfilled_preflight"
         else rowGet metadata_rows[i] "download_status") := by
  refine ⟨preflight_row fs download_dir metadata_rows[i], ?_, ?_, ?_, ?_, ?_⟩
  · simp [preflight_backfill_missing_sha, List.getElem?_eq_getElem hi]
  · exact (preflight_row_updates fs download_dir _ lp hid hsha hres).2.2.1
  · rw [(preflight_row_updates fs download_dir _ lp hid hsha hres).2.2.1]
    exact hhex lp
  · exact (preflight_row_updates fs download_dir _ lp hid hsha hres).2.2.2.1
  · exact (preflight_row_updates fs download_dir _ lp hid hsha hres).2.2.2.2

/-- A concrete file system for the preflight witnesses: exactly one file
`dl/g.pdf` exists. -/
def preflightWitFS : FS :=
  { pathExists := fun p => p == "dl/g.pdf",
    sha256Hex := fun _ => "9f86d081884c7d659a2feaa0c55ad015a3bf4f1b2b0b822cd15d6c15b0f00a08" }

/-- A row with a non-empty external id, no hash and no prior status. -/
def preflightWitRow : Row :=
  [("ContentDocumentId", "DOC2"), ("downloaded_filename", "g.pdf"), ("Title", "report")]

theorem preflight_backfill_completeness_witness :
    pyStrip (rowGet preflightWitRow "ContentDocumentId") ≠ "" ∧
    pyStrip (rowGet preflightWitRow "sha256") = "" ∧
    resolve_local_file_path preflightWitFS preflightWitRow "dl" = some "dl/g.pdf" ∧
    (∀ p, preflightWitFS.sha256Hex p ≠ "") ∧
    (∃ r, (preflight_backfill_missing_sha preflightWitFS [preflightWitRow] "dl")[0]? = some r ∧
      rowGet r "sha256" = compute_sha256 preflightWitFS "dl/g.pdf" ∧
      rowGet r "sha256" ≠ "" ∧
      rowGet r "id_match_checked" = "true" ∧
      rowGet r "download_status" =
        (if rowGet preflightWitRow "download_status" = "" then "backfilled_preflight"
         else rowGet preflightWitRow "download_status")) :=
  ⟨by decide, by decide, by decide,
    fun _ => (by decide :
      ("9f86d081884c7d659a2feaa0c55ad015a3bf4f1b2b0b822cd15d6c15b0f00a08" : String) ≠ ""),
    preflight_backfill_completeness preflightWitFS "dl" [preflightWitRow] 0 (by decide)
      (by decide) (by decide) "dl/g.pdf" (by decide)
      (fun _ => (by decide :
        ("9f86d081884c7d659a2feaa0c55ad015a3bf4f1b2b0b822cd15d6c15b0f00a08" : String) ≠ ""))⟩

/-- C10: the Preflight pass leaves unchanged every row with a non-empty
sha256, an empty external id, or no resolvable local file; on the rows it
updates it touches only the six fields `downloaded_path`,
`downloaded_filename`, `generated_filename`, `sha256`, `download_status` and
`id_match_checked`, every other field of every row being preserved; and it
rewrites `downloaded_path` to the resolved local path and
`downloaded_filename` to that path's basename. -/
theorem preflight_frame_effect :
    (∀ fs download_dir row,
       (pyStrip (rowGet row "ContentDocumentId") = "" ∨
        pyStrip (rowGet row "sha256") ≠ "" ∨
        resolve_local_file_path fs row download_dir = none) →
       preflight_row fs download_dir row = row) ∧
    (∀ fs download_dir row k,
       k ∉ ["downloaded_path", "downloaded_filename", "generated_filename",
            "sha256", "download_status", "id_match_checked"] →
       rowGet (preflight_row fs download_dir row) k = rowGet row k) ∧
    (∀ fs download_dir row lp,
       pyStrip (rowGet row "ContentDocumentId") ≠ "" →
       pyStrip (rowGet row "sha256") = "" →
       resolve_local_file_path fs row download_dir = some lp →
       rowGet (preflight_row fs download_dir row) "downloaded_path" = lp ∧
       rowGet (preflight_row fs download_dir row) "downloaded_filename" = basename lp) :=
  ⟨fun fs dd row h => preflight_row_skip fs dd row h,
   fun fs dd row k hk => preflight_row_frame fs dd row k hk,
   fun fs dd row lp hid hsha hres =>
     ⟨(preflight_row_updates fs dd row lp hid hsha hres).1,
      (preflight_row_updates fs dd row lp hid hsha hres).2.1⟩⟩

theorem preflight_frame_effect_witness :
    (rowGet (preflight_row preflightWitFS "dl" preflightWitRow) "Title" =
      rowGet preflightWitRow "Title") ∧
    preflight_row preflightWitFS "dl" preflightCexRow = preflightCexRow ∧
    rowGet (preflight_row preflightWitFS "dl" preflightWitRow) "downloaded_path" = "dl/g.pdf" :=
  ⟨preflight_frame_effect.2.1 preflightWitFS "dl" preflightWitRow "Title" (by decide),
   preflight_frame_effect.1 preflightWitFS "dl" preflightCexRow (Or.inr (Or.inr (by decide))),
   (preflight_frame_effect.2.2 preflightWitFS "dl" preflightWitRow "dl/g.pdf"
     (by decide) (by decide) (by decide)).1⟩

/-- The set comprehension in `main` that collects the non-empty stripped
`ContentDocumentId` values of a row list. -/
def currentIds (rows : List Row) : List String :=
  rows.filterMap (fun row =>
    let content_document_id := pyStrip (rowGet row "ContentDocumentId")
    if content_document_id = "" then none else some content_document_id)

/-- The `for row in legacy_rows` append loop of the legacy-merge branch in
`main`: a legacy row is appended when its stripped id is non-empty and not yet
in the id set, and its id is then added to the set. -/
def merge_loop : List Row → List String → List Row → List Row
  | [], _, acc => acc
  | row :: rest, ids, acc =>
    let content_document_id := pyStrip (rowGet row "ContentDocumentId")
    if content_document_id ≠ "" ∧ content_document_id ∉ ids then
      merge_loop rest (content_document_id :: ids) (acc ++ [row])
    else merge_loop rest ids acc

/-- The legacy-merge logic at the start of `main` (lines 285-310 of
`run_full_pipeline.py`): `legacy = none` models an absent legacy file (or a
legacy path equal to the primary database path); when the primary database has
no rows it is seeded wholesale from a non-empty legacy file, otherwise legacy
rows with fresh non-empty ids are appended. -/
def merge_legacy (metadata_rows : List Row) (legacy : Option (List Row)) : List Row :=
  match legacy with
  | none => metadata_rows
  | some legacy_rows =>
    if metadata_rows.isEmpty then
      if legacy_rows.isEmpty then metadata_rows else legacy_rows
    else if legacy_rows.isEmpty then metadata_rows
    else merge_loop legacy_rows (currentIds metadata_rows) metadata_rows

theorem merge_loop_append (rows : List Row) (ids : List String) (acc : List Row) :
    ∃ extra, merge_loop rows ids acc = acc ++ extra := by
  induction rows generalizing ids acc with
  | nil => exact ⟨[], by simp [merge_loop]⟩
  | cons row rest ih =>
    unfold merge_loop
    by_cases h : pyStrip (rowGet row "ContentDocumentId") ≠ "" ∧
        pyStrip (rowGet row "ContentDocumentId") ∉ ids
    · rw [if_pos h]
      obtain ⟨extra, he⟩ := ih (pyStrip (rowGet row "ContentDocumentId") :: ids) (acc ++ [row])
      exact ⟨row :: extra, by simp [he]⟩
    · rw [if_neg h]
      exact ih ids acc

theorem merge_loop_filter (rows : List Row) (ids : List String) (acc : List Row)
    (hnd : (currentIds rows).Nodup) :
    merge_loop rows ids acc =
      acc ++ rows.filter (fun row =>
        decide (pyStrip (rowGet row "ContentDocumentId") ≠ "") &&
        !ids.contains (pyStrip (rowGet row "ContentDocumentId"))) := by
  induction rows generalizing ids acc with
  | nil => simp [merge_loop]
  | cons row rest ih =>
    have hnd' : (currentIds rest).Nodup := by
      unfold currentIds at hnd ⊢
      by_cases hzero : pyStrip (rowGet row "ContentDocumentId") = ""
      · simpa [List.filterMap_cons, hzero] using hnd
      · exact (by simpa [List.filterMap_cons, hzero] using hnd : _ ∧ _).2
    unfold merge_loop
    by_cases h : pyStrip (rowGet row "ContentDocumentId") ≠ "" ∧
        pyStrip (rowGet row "ContentDocumentId") ∉ ids
    · rw [if_pos h]
      rw [ih (pyStrip (rowGet row "ContentDocumentId") :: ids) (acc ++ [row]) hnd']
      have hcur : currentIds (row :: rest) =
          pyStrip (rowGet row "ContentDocumentId") :: currentIds rest := by
        simp [currentIds, List.filterMap_cons, h.1]
      have hnot : pyStrip (rowGet row "ContentDocumentId") ∉ currentIds rest := by
        rw [hcur] at hnd
        exact (List.nodup_cons.mp hnd).1
      have hfil : rest.filter (fun r =>
            decide (pyStrip (rowGet r "ContentDocumentId") ≠ "") &&
            !(pyStrip (rowGet row "ContentDocumentId") :: ids).contains
              (pyStrip (rowGet r "ContentDocumentId"))) =
          rest.filter (fun r =>
            decide (pyStrip (rowGet r "ContentDocumentId") ≠ "") &&
            !ids.contains (pyStrip (rowGet r "ContentDocumentId"))) := by
        apply List.filter_congr
        intro r hr
        by_cases hz : pyStrip (rowGet r "ContentDocumentId") = ""
        · simp [hz]
        · have hne : pyStrip (rowGet r "ContentDocumentId") ≠
              pyStrip (rowGet row "ContentDocumentId") := by
            intro heq
            apply hnot
            rw [← heq]
            exact List.mem_filterMap.2 ⟨r, hr, by simp [hz]⟩
          simp [hz, List.contains_cons, hne]
      rw [hfil, List.filter_cons_of_pos (by simp [h.1, h.2]), List.append_assoc]
      simp
    · rw [if_neg h]
      rw [ih ids acc hnd']
      have hpred : (decide (pyStrip (rowGet row "ContentDocumentId") ≠ "") &&
          !ids.contains (pyStrip (rowGet row "ContentDocumentId"))) = false := by
        by_cases hz : pyStrip (rowGet row "ContentDocumentId") = ""
        · simp [hz]
        · have hin : pyStrip (rowGet row "ContentDocumentId") ∈ ids := by
            by_contra hmem
            exact h ⟨hz, hmem⟩
          simp [hz, hin]
      simp only [List.filter_cons, hpred, Bool.false_eq_true, if_false]

/-- C4: on startup, an empty primary database is seeded wholesale from a
non-empty legacy file; a non-empty primary database is extended by exactly the
legacy rows whose non-empty id is not already present (given the legacy file
itself, as the row-store invariant guarantees, has no duplicate non-empty
ids); and the primary rows are always a prefix of the result, so no existing
primary row is ever overwritten by a legacy row. -/
theorem legacy_merge_semantics :
    (∀ legacy_rows, legacy_rows ≠ [] →
       merge_legacy [] (some legacy_rows) = legacy_rows) ∧
    (∀ metadata_rows legacy, ∃ appended,
       merge_legacy metadata_rows legacy = metadata_rows ++ appended) ∧
    (∀ metadata_rows legacy_rows, metadata_rows ≠ [] →
       (currentIds legacy_rows).Nodup →
       merge_legacy metadata_rows (some legacy_rows) =
         metadata_rows ++ legacy_rows.filter (fun row =>
           decide (pyStrip (rowGet row "ContentDocumentId") ≠ "") &&
           !(currentIds metadata_rows).contains
             (pyStrip (rowGet row "ContentDocumentId")))) := by
  refine ⟨?_, ?_, ?_⟩
  · intro legacy_rows hne
    simp [merge_legacy, List.isEmpty_iff, hne]
  · intro metadata_rows legacy
    match legacy with
    | none => exact ⟨[], by simp [merge_legacy]⟩
    | some legacy_rows =>
      by_cases hm : metadata_rows.isEmpty
      · rw [List.isEmpty_iff] at hm
        subst hm
        by_cases hl : legacy_rows.isEmpty
        · exact ⟨[], by simp [merge_legacy, hl]⟩
        · exact ⟨legacy_rows, by simp [merge_legacy, hl]⟩
      · by_cases hl : legacy_rows.isEmpty
        · exact ⟨[], by simp [merge_legacy, hm, hl]⟩
        · have := merge_loop_append legacy_rows (currentIds metadata_rows) metadata_rows
          obtain ⟨extra, he⟩ := this
          exact ⟨extra, by simp [merge_legacy, hm, hl, he]⟩
  · intro metadata_rows legacy_rows hm hnd
    by_cases hl : legacy_rows.isEmpty
    · rw [List.isEmpty_iff] at hl
      subst hl
      simp [merge_legacy, List.isEmpty_iff, hm]
    · have hm' : ¬ metadata_rows.isEmpty := by
        rw [List.isEmpty_iff]
        exact hm
      simp only [merge_legacy, hm', hl, if_false, Bool.false_eq_true]
      exact merge_loop_filter legacy_rows (currentIds metadata_rows) metadata_rows hnd

/-- Legacy rows for the merge witness, ids A, B and C. -/
def legacyRowA : Row := [("ContentDocumentId", "A"), ("agency_id", "ag1")]

/-- Legacy row with id B. -/
def legacyRowB : Row := [("ContentDocumentId", "B"), ("agency_id", "ag1")]

/-- Legacy row with id C. -/
def legacyRowC : Row := [("ContentDocumentId", "C"), ("agency_id", "ag2")]

theorem legacy_merge_semantics_witness :
    merge_legacy [] (some [legacyRowA, legacyRowB, legacyRowC]) =
      [legacyRowA, legacyRowB, legacyRowC] ∧
    merge_legacy [legacyRowA] (some [legacyRowA, legacyRowB]) = [legacyRowA, legacyRowB] := by
  constructor
  · exact legacy_merge_semantics.1 [legacyRowA, legacyRowB, legacyRowC] (by decide)
  · rw [legacy_merge_semantics.2.2 [legacyRowA] [legacyRowA, legacyRowB]
      (by decide) (by decide)]
    decide

/-- Fold a list of items into a Python dict, keyed by `keyOf` (items whose key
is `none` are skipped); later items overwrite earlier ones. This is the common
shape of `build_metadata_index` and `load_all_records`. -/
def dictInsertMany {α : Type} (d : Dict α) (items : List α)
    (keyOf : α → Option String) : Dict α :=
  items.foldl (fun acc x =>
    match keyOf x with
    | some k => dictInsert acc k x
    | none => acc) d

theorem dictInsertMany_append {α : Type} (d : Dict α) (l₁ l₂ : List α)
    (keyOf : α → Option String) :
    dictInsertMany d (l₁ ++ l₂) keyOf = dictInsertMany (dictInsertMany d l₁ keyOf) l₂ keyOf := by
  simp [dictInsertMany, List.foldl_append]

theorem dictGet?_insertMany {α : Type} (d : Dict α) (items : List α)
    (keyOf : α → Option String) (k : String) :
    dictGet? (dictInsertMany d items keyOf) k =
      ((items.filter (fun x => keyOf x == some k)).getLast?).elim (dictGet? d k) some := by
  induction items using List.reverseRecOn with
  | nil => simp [dictInsertMany]
  | append_singleton l x ih =>
    rw [dictInsertMany_append]
    by_cases hx : keyOf x == some k
    · have hx' : keyOf x = some k := by simpa using hx
      simp only [dictInsertMany, List.foldl_cons, List.foldl_nil, hx']
      rw [dictGet?_insert_self]
      rw [List.filter_append, List.filter_cons_of_pos (by simp [hx]), List.filter_nil]
      simp
    · cases hko : keyOf x with
      | none =>
        simp only [dictInsertMany, List.foldl_cons, List.foldl_nil, hko]
        rw [show (List.foldl (fun acc x =>
            match keyOf x with
            | some k => dictInsert acc k x
            | none => acc) d l) = dictInsertMany d l keyOf from rfl, ih,
          List.filter_append, List.filter_cons_of_neg (by simp [hko]),
          List.filter_nil, List.append_nil]
      | some k' =>
        have hk' : k ≠ k' := by
          intro hh
          apply hx
          simp [hko, hh]
        simp only [dictInsertMany, List.foldl_cons, List.foldl_nil, hko]
        rw [dictGet?_insert_other _ _ _ _ hk']
        rw [show (List.foldl (fun acc x =>
            match keyOf x with
            | some k => dictInsert acc k x
            | none => acc) d l) = dictInsertMany d l keyOf from rfl, ih,
          List.filter_append, List.filter_cons_of_neg (by simpa [hko] using hx),
          List.filter_nil, List.append_nil]

theorem dictKeys_nodup_insertMany {α : Type} (d : Dict α) (items : List α)
    (keyOf : α → Option String) (h : (dictKeys d).Nodup) :
    (dictKeys (dictInsertMany d items keyOf)).Nodup := by
  induction items generalizing d with
  | nil => simpa [dictInsertMany] using h
  | cons x items ih =>
    cases hko : keyOf x with
    | none => simpa [dictInsertMany, List.foldl_cons, hko] using ih _ h
    | some k =>
      simpa [dictInsertMany, List.foldl_cons, hko] using
        ih _ (dictKeys_nodup_insert d k x h)

theorem mem_dictKeys_insertMany {α : Type} (d : Dict α) (items : List α)
    (keyOf : α → Option String) (k : String) :
    k ∈ dictKeys (dictInsertMany d items keyOf) ↔
      k ∈ dictKeys d ∨ ∃ x ∈ items, keyOf x = some k := by
  induction items generalizing d with
  | nil => simp [dictInsertMany]
  | cons x items ih =>
    cases hko : keyOf x with
    | none =>
      simp only [dictInsertMany, List.foldl_cons, hko]
      rw [show (items.foldl (fun acc x =>
          match keyOf x with
          | some k => dictInsert acc k x
          | none => acc) d) = dictInsertMany d items keyOf from rfl, ih]
      simp only [List.mem_cons]
      constructor
      · rintro (h | ⟨y, hy, hk⟩)
        · exact Or.inl h
        · exact Or.inr ⟨y, Or.inr hy, hk⟩
      · rintro (h | ⟨y, hy | hy, hk⟩)
        · exact Or.inl h
        · subst hy
          rw [hko] at hk
          exact absurd hk (by simp)
        · exact Or.inr ⟨y, hy, hk⟩
    | some k' =>
      simp only [dictInsertMany, List.foldl_cons, hko]
      rw [show (items.foldl (fun acc x =>
          match keyOf x with
          | some k => dictInsert acc k x
          | none => acc) (dictInsert d k' x)) = dictInsertMany (dictInsert d k' x) items keyOf
          from rfl, ih]
      rw [mem_dictKeys_insert]
      simp only [List.mem_cons]
      constructor
      · rintro ((h | rfl) | ⟨y, hy, hk⟩)
        · exact Or.inl h
        · exact Or.inr ⟨x, Or.inl rfl, hko⟩
        · exact Or.inr ⟨y, Or.inr hy, hk⟩
      · rintro (h | ⟨y, hy | hy, hk⟩)
        · exact Or.inl (Or.inl h)
        · subst hy
          rw [hko] at hk
          exact Or.inl (Or.inr (by simpa using hk.symm))
        · exact Or.inr ⟨y, hy, hk⟩

theorem dictValues_insertMany_subset {α : Type} (d : Dict α) (items : List α)
    (keyOf : α → Option String) (v : α)
    (h : v ∈ dictValues (dictInsertMany d items keyOf)) :
    v ∈ dictValues d ∨ (v ∈ items ∧ keyOf v ≠ none) := by
  induction items generalizing d with
  | nil => exact Or.inl (by simpa [dictInsertMany] using h)
  | cons x items ih =>
    cases hko : keyOf x with
    | none =>
      have h' : v ∈ dictValues (dictInsertMany d items keyOf) := by
        simpa [dictInsertMany, List.foldl_cons, hko] using h
      rcases ih _ h' with h'' | ⟨hv, hk⟩
      · exact Or.inl h''
      · exact Or.inr ⟨List.mem_cons_of_mem x hv, hk⟩
    | some k =>
      have h' : v ∈ dictValues (dictInsertMany (dictInsert d k x) items keyOf) := by
        simpa [dictInsertMany, List.foldl_cons, hko] using h
      rcases ih _ h' with h'' | ⟨hv, hk⟩
      · rcases dictValues_insert_subset d k x v h'' with rfl | h3
        · exact Or.inr ⟨List.mem_cons_self _ _, by simp [hko]⟩
        · exact Or.inl h3
      · exact Or.inr ⟨List.mem_cons_of_mem x hv, hk⟩

theorem dictGet?_mem_keys {α : Type} (d : Dict α) (k : String) (v : α)
    (h : dictGet? d k = some v) : k ∈ dictKeys d := by
  induction d with
  | nil => simp [dictGet?] at h
  | cons p d ih =>
    by_cases hp : p.1 = k
    · simp [dictKeys, hp]
    · rw [dictGet?] at h
      rw [if_neg (by simpa using hp)] at h
      simp [dictKeys]
      exact Or.inr (by simpa [dictKeys] using ih h)

/-- Model of `build_metadata_index` in `run_full_pipeline.py`: index rows by their
stripped `ContentDocumentId`, skipping rows whose id is empty or missing;
for duplicate ids the later row overwrites the earlier one. -/
def build_metadata_index (rows : List Row) : Dict Row :=
  rows.foldl (fun by_id row =>
    let content_document_id := pyStrip (rowGet row "ContentDocumentId")
    if content_document_id = "" then by_id
    else dictInsert by_id content_document_id row) []

/-- The key under which `build_metadata_index` stores a row, if any. -/
def metaKeyOf (row : Row) : Option String :=
  let content_document_id := pyStrip (rowGet row "ContentDocumentId")
  if content_document_id = "" then none else some content_document_id

theorem build_metadata_index_eq (rows : List Row) :
    build_metadata_index rows = dictInsertMany [] rows metaKeyOf := by
  unfold build_metadata_index dictInsertMany
  congr 1
  funext acc row
  unfold metaKeyOf
  by_cases h : pyStrip (rowGet row "ContentDocumentId") = "" <;> simp [h]

/-- The sort comparator used on the cumulative rows in `main`: Python tuple
comparison on `(row.get("agency_id", ""), row.get("ContentDocumentId", ""))`. -/
def rowSortLE (a b : Row) : Bool :=
  decide (rowGet a "agency_id" < rowGet b "agency_id") ||
  (rowGet a "agency_id" == rowGet b "agency_id" &&
   decide (rowGet a "ContentDocumentId" ≤ rowGet b "ContentDocumentId"))

/-- The cumulative-database rows written at the end of `main`:
`list(metadata_by_id.values())` sorted (stably) by the `(agency_id, id)` key. -/
def cumulative_database_rows (metadata_by_id : Dict Row) : List Row :=
  List.insertionSort (fun a b => rowSortLE a b = true) (dictValues metadata_by_id)

/-- C9: the cumulative database written at the end of a run holds exactly the
values of the id-keyed in-memory index (the sort only permutes them); every
written row has a non-empty stripped `ContentDocumentId`, so rows with an
empty or missing id are omitted; lookups of the index return the last loaded
row for each non-empty id, so of duplicate ids only the last-indexed row
survives; and the index has no duplicate keys. -/
theorem cumulative_database_from_index (rows : List Row) :
    (cumulative_database_rows (build_metadata_index rows)).Perm
        (dictValues (build_metadata_index rows)) ∧
    (∀ r ∈ cumulative_database_rows (build_metadata_index rows),
        pyStrip (rowGet r "ContentDocumentId") ≠ "") ∧
    (∀ i : String,
        dictGet? (build_metadata_index rows) i =
          if i = "" then none
          else (rows.filter (fun row =>
                  pyStrip (rowGet row "ContentDocumentId") == i)).getLast?) ∧
    (dictKeys (build_metadata_index rows)).Nodup := by
  have hperm : (cumulative_database_rows (build_metadata_index rows)).Perm
      (dictValues (build_metadata_index rows)) :=
    List.perm_insertionSort _ _
  refine ⟨hperm, ?_, ?_, ?_⟩
  · intro r hr
    have hr' : r ∈ dictValues (build_metadata_index rows) := hperm.mem_iff.mp hr
    rw [build_metadata_index_eq] at hr'
    rcases dictValues_insertMany_subset [] rows metaKeyOf r hr' with h | ⟨_, hk⟩
    · simp [dictValues] at h
    · intro hz
      exact hk (by simp [metaKeyOf, hz])
  · intro i
    rw [build_metadata_index_eq, dictGet?_insertMany]
    by_cases hi : i = ""
    · subst hi
      have : rows.filter (fun x => metaKeyOf x == some "") = [] := by
        apply List.filter_eq_nil_iff.mpr
        intro x _
        simp [metaKeyOf]
      rw [this]
      simp [dictGet?]
    · rw [if_neg hi]
      have hfil : rows.filter (fun x => metaKeyOf x == some i) =
          rows.filter (fun row => pyStrip (rowGet row "ContentDocumentId") == i) := by
        apply List.filter_congr
        intro x _
        unfold metaKeyOf
        by_cases hz : pyStrip (rowGet x "ContentDocumentId") = ""
        · have hne : ¬ "" = i := fun hh => hi hh.symm
          simp [hz, hne]
        · simp [hz]
      rw [hfil]
      cases hlast : (rows.filter
          (fun row => pyStrip (rowGet row "ContentDocumentId") == i)).getLast? with
      | none => simp [dictGet?]
      | some r => simp
  · rw [build_metadata_index_eq]
    exact dictKeys_nodup_insertMany [] rows metaKeyOf (by simp [dictKeys])

/-- Rows for the cumulative-database witness: a duplicated id X and an
empty-id row. -/
def metaRows : List Row :=
  [[("ContentDocumentId", "X"), ("v", "1")],
   [("ContentDocumentId", ""), ("v", "2")],
   [("ContentDocumentId", "X"), ("v", "3")]]

theorem cumulative_database_from_index_witness :
    dictGet? (build_metadata_index metaRows) "X" =
      some [("ContentDocumentId", "X"), ("v", "3")] ∧
    dictGet? (build_metadata_index metaRows) "" = none ∧
    (cumulative_database_rows (build_metadata_index metaRows)).Perm
      (dictValues (build_metadata_index metaRows)) ∧
    pyStrip (rowGet [("ContentDocumentId", "X"), ("v", "3")] "ContentDocumentId") ≠ "" := by
  refine ⟨?_, ?_, (cumulative_database_from_index metaRows).1, ?_⟩
  · rw [(cumulative_database_from_index metaRows).2.2.1 "X"]
    decide
  · rw [(cumulative_database_from_index metaRows).2.2.1 ""]
    decide
  · exact (cumulative_database_from_index metaRows).2.1 _
      (((cumulative_database_from_index metaRows).1).mem_iff.mpr (by decide))

/-- One record of a text batch (Parquet) file written by
`extract_pdf_text.py`: the file hash, the per-page text and the processing
timestamp. -/
structure TextBatchRecord where
  sha256 : String
  text : List String
  dateprocessed : String
deriving DecidableEq

/-- A directory of batch (Parquet) files in scan order; `none` models a file
that fails to parse (`pd.read_parquet` raising), `some recs` a readable file
with its records in row order. -/
abbrev BatchStore := List (Option (List TextBatchRecord))

/-- Model of `load_processed_ids` in `extract_pdf_text.py`: union the `sha256` values
of every readable batch file; unreadable files are logged and skipped. The
Python set is modelled by this list's membership. -/
def load_processed_ids (batches : BatchStore) : List String :=
  batches.foldl (fun processed b =>
    match b with
    | some recs => processed ++ recs.map (fun r => r.sha256)
    | none => processed) []

/-- Model of `load_all_records` in `extract_pdf_text.py`: index the records of every
readable batch file by `sha256`, dict-assigning row by row so that a
later-scanned occurrence overwrites an earlier one; unreadable files are
logged and skipped. -/
def load_all_records (batches : BatchStore) : Dict TextBatchRecord :=
  batches.foldl (fun records b =>
    match b with
    | some recs => recs.foldl (fun records r => dictInsert records r.sha256 r) records
    | none => records) []

/-- The records of the readable batch files, in scan order. -/
def allBatchRecords (batches : BatchStore) : List TextBatchRecord :=
  (batches.filterMap id).flatten

theorem allBatchRecords_cons_none (batches : BatchStore) :
    allBatchRecords (none :: batches) = allBatchRecords batches := by
  simp [allBatchRecords]

theorem allBatchRecords_cons_some (recs : List TextBatchRecord) (batches : BatchStore) :
    allBatchRecords (some recs :: batches) = recs ++ allBatchRecords batches := by
  simp [allBatchRecords]

theorem mem_allBatchRecords (batches : BatchStore) (r : TextBatchRecord) :
    r ∈ allBatchRecords batches ↔ ∃ recs, some recs ∈ batches ∧ r ∈ recs := by
  simp only [allBatchRecords, List.mem_flatten, List.mem_filterMap, id_eq]
  constructor
  · rintro ⟨l, ⟨b, hb, rfl⟩, hr⟩
    exact ⟨l, by simpa using hb, hr⟩
  · rintro ⟨recs, hb, hr⟩
    exact ⟨recs, ⟨some recs, hb, rfl⟩, hr⟩

theorem load_all_records_fold (batches : BatchStore) (d : Dict TextBatchRecord) :
    batches.foldl (fun records b =>
      match b with
      | some recs => recs.foldl (fun records r => dictInsert records r.sha256 r) records
      | none => records) d =
    dictInsertMany d (allBatchRecords batches) (fun r => some r.sha256) := by
  induction batches generalizing d with
  | nil => simp [dictInsertMany, allBatchRecords]
  | cons b batches ih =>
    cases b with
    | none => simpa [allBatchRecords_cons_none] using ih d
    | some recs =>
      rw [List.foldl_cons, allBatchRecords_cons_some, dictInsertMany_append]
      exact ih (dictInsertMany d recs (fun r => some r.sha256))

theorem load_all_records_eq (batches : BatchStore) :
    load_all_records batches =
      dictInsertMany [] (allBatchRecords batches) (fun r => some r.sha256) :=
  load_all_records_fold batches []

theorem load_processed_ids_fold (batches : BatchStore) (acc : List String) (h : String) :
    h ∈ batches.foldl (fun processed b =>
      match b with
      | some recs => processed ++ recs.map (fun r => r.sha256)
      | none => processed) acc ↔
    h ∈ acc ∨ ∃ r ∈ allBatchRecords batches, r.sha256 = h := by
  induction batches generalizing acc with
  | nil => simp [allBatchRecords]
  | cons b batches ih =>
    cases b with
    | none => simpa [allBatchRecords_cons_none] using ih acc
    | some recs =>
      rw [List.foldl_cons, allBatchRecords_cons_some]
      refine Iff.trans (ih (acc ++ recs.map (fun r => r.sha256))) ?_
      simp only [List.mem_append, List.mem_map]
      constructor
      · rintro ((h1 | ⟨r, hr, rfl⟩) | ⟨r, hr, rfl⟩)
        · exact Or.inl h1
        · exact Or.inr ⟨r, Or.inl hr, rfl⟩
        · exact Or.inr ⟨r, Or.inr hr, rfl⟩
      · rintro (h1 | ⟨r, hr | hr, rfl⟩)
        · exact Or.inl (Or.inl h1)
        · exact Or.inl (Or.inr ⟨r, hr, rfl⟩)
        · exact Or.inr ⟨r, hr, rfl⟩

theorem mem_load_processed_ids (batches : BatchStore) (h : String) :
    h ∈ load_processed_ids batches ↔ ∃ r ∈ allBatchRecords batches, r.sha256 = h := by
  rw [load_processed_ids, load_processed_ids_fold]
  simp

theorem load_processed_ids_readable (batches : BatchStore) :
    load_processed_ids batches =
      load_processed_ids (batches.filter (fun b => b.isSome)) := by
  unfold load_processed_ids
  suffices hgen : ∀ acc : List String,
      batches.foldl (fun processed b =>
        match b with
        | some recs => processed ++ recs.map (fun r => r.sha256)
        | none => processed) acc =
      (batches.filter (fun b => b.isSome)).foldl (fun processed b =>
        match b with
        | some recs => processed ++ recs.map (fun r => r.sha256)
        | none => processed) acc from hgen []
  induction batches with
  | nil => intro acc; rfl
  | cons b batches ih =>
    intro acc
    cases b with
    | none => simpa using ih acc
    | some recs => simpa using ih (acc ++ recs.map (fun r => r.sha256))

theorem load_all_records_readable (batches : BatchStore) :
    load_all_records batches =
      load_all_records (batches.filter (fun b => b.isSome)) := by
  unfold load_all_records
  suffices hgen : ∀ d : Dict TextBatchRecord,
      batches.foldl (fun records b =>
        match b with
        | some recs => recs.foldl (fun records r => dictInsert records r.sha256 r) records
        | none => records) d =
      (batches.filter (fun b => b.isSome)).foldl (fun records b =>
        match b with
        | some recs => recs.foldl (fun records r => dictInsert records r.sha256 r) records
        | none => records) d from hgen []
  induction batches with
  | nil => intro d; rfl
  | cons b batches ih =>
    intro d
    cases b with
    | none => simpa using ih d
    | some recs =>
      simpa using ih (recs.foldl (fun records r => dictInsert records r.sha256 r) d)

theorem dictGet?_load_all_records (batches : BatchStore) (h : String) :
    dictGet? (load_all_records batches) h =
      ((allBatchRecords batches).filter (fun r => r.sha256 == h)).getLast? := by
  rw [load_all_records_eq, dictGet?_insertMany]
  have hfil : (allBatchRecords batches).filter (fun x => some x.sha256 == some h) =
      (allBatchRecords batches).filter (fun r => r.sha256 == h) := by
    apply List.filter_congr
    intro x _
    simp
  rw [hfil]
  cases ((allBatchRecords batches).filter (fun r => r.sha256 == h)).getLast? with
  | none => simp [dictGet?]
  | some r => simp

/-- C5: for every batch directory, `load_all_records` has exactly one entry
per hash occurring in a readable batch file (its keys are duplicate-free and
its key set is the set of hashes of readable records), and the entry for a
hash is the last record with that hash in scan order — the occurrence in
whichever batch file is scanned later wins. -/
theorem load_all_records_later_file_wins (batches : BatchStore) (h : String) :
    dictGet? (load_all_records batches) h =
      ((allBatchRecords batches).filter (fun r => r.sha256 == h)).getLast? ∧
    (dictKeys (load_all_records batches)).Nodup ∧
    (h ∈ dictKeys (load_all_records batches) ↔
      ∃ recs, some recs ∈ batches ∧ ∃ r ∈ recs, r.sha256 = h) := by
  refine ⟨dictGet?_load_all_records batches h, ?_, ?_⟩
  · rw [load_all_records_eq]
    exact dictKeys_nodup_insertMany [] (allBatchRecords batches) _ (by simp [dictKeys])
  · rw [load_all_records_eq, mem_dictKeys_insertMany]
    simp only [dictKeys, List.map_nil, List.not_mem_nil, false_or, Option.some.injEq]
    constructor
    · rintro ⟨x, hx, rfl⟩
      obtain ⟨recs, hb, hr⟩ := (mem_allBatchRecords batches x).mp hx
      exact ⟨recs, hb, x, hr, rfl⟩
    · rintro ⟨recs, hb, r, hr, rfl⟩
      exact ⟨r, (mem_allBatchRecords batches r).mpr ⟨recs, hb, hr⟩, rfl⟩

/-- C8: a batch file that fails to parse is skipped without aborting the scan
of either reader — both readers compute exactly the union/merge over the
readable batch files, membership in the hash set is equivalent to occurrence
in some readable file, and a hash whose only occurrence is in an unreadable
file is absent from both results. -/
theorem batch_scan_skips_unreadable (batches : BatchStore) :
    load_processed_ids batches =
      load_processed_ids (batches.filter (fun b => b.isSome)) ∧
    load_all_records batches =
      load_all_records (batches.filter (fun b => b.isSome)) ∧
    (∀ h : String, h ∈ load_processed_ids batches ↔
      ∃ recs, some recs ∈ batches ∧ ∃ r ∈ recs, r.sha256 = h) ∧
    (∀ h : String, (∀ r ∈ allBatchRecords batches, r.sha256 ≠ h) →
      h ∉ load_processed_ids batches ∧ dictGet? (load_all_records batches) h = none) := by
  refine ⟨load_processed_ids_readable batches, load_all_records_readable batches, ?_, ?_⟩
  · intro h
    rw [mem_load_processed_ids]
    constructor
    · rintro ⟨r, hr, rfl⟩
      obtain ⟨recs, hb, hrec⟩ := (mem_allBatchRecords batches r).mp hr
      exact ⟨recs, hb, r, hrec, rfl⟩
    · rintro ⟨recs, hb, r, hrec, rfl⟩
      exact ⟨r, (mem_allBatchRecords batches r).mpr ⟨recs, hb, hrec⟩, rfl⟩
  · intro h hnone
    constructor
    · rw [mem_load_processed_ids]
      rintro ⟨r, hr, rfl⟩
      exact hnone r hr rfl
    · rw [dictGet?_load_all_records batches h]
      rw [List.getLast?_eq_none_iff]
      apply List.filter_eq_nil_iff.mpr
      intro r hr
      simp [hnone r hr]

/-- Batch record for witnesses: hash `abc123`, first extraction. -/
def batchRecA1 : TextBatchRecord :=
  { sha256 := "abc123", text := ["page one"], dateprocessed := "t1" }

/-- Batch record for witnesses: same hash `abc123`, different page text. -/
def batchRecA2 : TextBatchRecord :=
  { sha256 := "abc123", text := ["page ONE"], dateprocessed := "t2" }

/-- Two batch files that both contain hash `abc123`. -/
def dupBatches : BatchStore := [some [batchRecA1], some [batchRecA2]]

theorem load_all_records_later_file_wins_witness :
    dictGet? (load_all_records dupBatches) "abc123" = some batchRecA2 ∧
    (dictKeys (load_all_records dupBatches)).Nodup := by
  refine ⟨?_, (load_all_records_later_file_wins dupBatches "abc123").2.1⟩
  rw [(load_all_records_later_file_wins dupBatches "abc123").1]
  decide

/-- A batch store whose second file is unreadable. -/
def corruptBatches : BatchStore := [some [batchRecA1], none]

theorem batch_scan_skips_unreadable_witness :
    (∀ r ∈ allBatchRecords corruptBatches, r.sha256 ≠ "deadbeef") ∧
    "deadbeef" ∉ load_processed_ids corruptBatches ∧
    dictGet? (load_all_records corruptBatches) "deadbeef" = none ∧
    load_processed_ids corruptBatches =
      load_processed_ids (corruptBatches.filter (fun b => b.isSome)) := by
  refine ⟨by decide, ?_, ?_, (batch_scan_skips_unreadable corruptBatches).1⟩
  · exact ((batch_scan_skips_unreadable corruptBatches).2.2.2 "deadbeef" (by decide)).1
  · exact ((batch_scan_skips_unreadable corruptBatches).2.2.2 "deadbeef" (by decide)).2

/-- Lexicographic comparison of char lists by code point, as Python compares
strings. -/
def charListLE : List Char → List Char → Bool
  | [], _ => true
  | _ :: _, [] => false
  | a :: as, b :: bs => if a < b then true else if b < a then false else charListLE as bs

/-- Python `<=` on strings. -/
def pyStrLE (a b : String) : Bool := charListLE a.toList b.toList

/-- The `limit is not None and processed_count >= limit` break test of the
processing loop. -/
def limit_reached (limit : Option Nat) (processed_count : Nat) : Bool :=
  match limit with
  | some n => decide (processed_count ≥ n)
  | none => false

/-- The per-file loop of `process_directory` in `extract_pdf_text.py`
(`for idx, pdf_path in enumerate(sorted(pdf_files), 1)`): hash the file (a
hashing/extraction exception counts the file as an error and skips it), skip
it when its hash was already processed, break when the processed count has
reached the limit, otherwise extract the page text, append the new record and
add the hash to the processed set. -/
def process_loop (hashF : String → Option String) (extractF : String → Option (List String))
    (now : String) (limit : Option Nat) :
    List String → List String → List TextBatchRecord → Nat → List TextBatchRecord
  | [], _, records, _ => records
  | pdf_path :: rest, processed_ids, records, processed_count =>
    match hashF pdf_path with
    | none => process_loop hashF extractF now limit rest processed_ids records processed_count
    | some pdf_hash =>
      if pdf_hash ∈ processed_ids then
        process_loop hashF extractF now limit rest processed_ids records processed_count
      else if limit_reached limit processed_count then
        records
      else
        match extractF pdf_path with
        | none => process_loop hashF extractF now limit rest processed_ids records processed_count
        | some pages_text =>
          process_loop hashF extractF now limit rest (pdf_hash :: processed_ids)
            (records ++ [{ sha256 := pdf_hash, text := pages_text, dateprocessed := now }])
            (processed_count + 1)

/-- Model of `process_directory` in `extract_pdf_text.py`, as its effect on the batch
store: load the processed-hash set from all existing batch files, count the
new files (an unhashable file counts as new), return the store unchanged when
nothing is to be processed, otherwise run the per-file loop over the sorted
file list and append at most one new batch file, none when the new-record
list is empty. `hashF`/`extractF` model `calculate_sha256` and
`extract_text_from_pdf`, `none` being a raised exception. -/
def process_directory (hashF : String → Option String)
    (extractF : String → Option (List String)) (now : String)
    (batches : BatchStore) (pdf_files : List String) (limit : Option Nat) : BatchStore :=
  let processed_ids := load_processed_ids batches
  let new_files_count := pdf_files.countP (fun p =>
    match hashF p with
    | some h => decide (h ∉ processed_ids)
    | none => true)
  let to_process_count := match limit with
    | some n => min new_files_count n
    | none => new_files_count
  if to_process_count = 0 then batches
  else
    let records := process_loop hashF extractF now limit
      (List.insertionSort (fun a b : String => pyStrLE a b = true) pdf_files) processed_ids [] 0
    if records = [] then batches else batches ++ [some records]

theorem process_loop_cons (hashF : String → Option String)
    (extractF : String → Option (List String)) (now : String) (limit : Option Nat)
    (pdf_path : String) (rest : List String) (processed_ids : List String)
    (records : List TextBatchRecord) (processed_count : Nat) :
    process_loop hashF extractF now limit (pdf_path :: rest) processed_ids records
        processed_count =
      (match hashF pdf_path with
       | none => process_loop hashF extractF now limit rest processed_ids records
           processed_count
       | some pdf_hash =>
         if pdf_hash ∈ processed_ids then
           process_loop hashF extractF now limit rest processed_ids records processed_count
         else if limit_reached limit processed_count then
           records
         else
           match extractF pdf_path with
           | none => process_loop hashF extractF now limit rest processed_ids records
               processed_count
           | some pages_text =>
             process_loop hashF extractF now limit rest (pdf_hash :: processed_ids)
               (records ++ [{ sha256 := pdf_hash, text := pages_text, dateprocessed := now }])
               (processed_count + 1)) := rfl

theorem process_loop_inv (hashF : String → Option String)
    (extractF : String → Option (List String)) (now : String) (limit : Option Nat)
    (files : List String) (processed_ids : List String)
    (records : List TextBatchRecord) (processed_count : Nat)
    (h1 : (records.map (fun r => r.sha256)).Nodup)
    (h2 : ∀ r ∈ records, r.sha256 ∈ processed_ids) :
    ((process_loop hashF extractF now limit files processed_ids records
        processed_count).map (fun r => r.sha256)).Nodup ∧
    ∀ r ∈ process_loop hashF extractF now limit files processed_ids records processed_count,
      r ∈ records ∨ r.sha256 ∉ processed_ids := by
  induction files generalizing processed_ids records processed_count with
  | nil => exact ⟨h1, fun r hr => Or.inl (by simpa [process_loop] using hr)⟩
  | cons pdf_path rest ih =>
    rw [process_loop_cons]
    cases hhash : hashF pdf_path with
    | none => exact ih processed_ids records processed_count h1 h2
    | some pdf_hash =>
      simp only []
      by_cases hmem : pdf_hash ∈ processed_ids
      · rw [if_pos hmem]
        exact ih processed_ids records processed_count h1 h2
      · rw [if_neg hmem]
        by_cases hlim : limit_reached limit processed_count = true
        · rw [if_pos hlim]
          exact ⟨h1, fun r hr => Or.inl hr⟩
        · rw [if_neg hlim]
          cases hext : extractF pdf_path with
          | none => exact ih processed_ids records processed_count h1 h2
          | some pages_text =>
            have h1' : ((records ++
                [TextBatchRecord.mk pdf_hash pages_text now]).map
                  (fun r => r.sha256)).Nodup := by
              rw [List.map_append, List.nodup_append]
              refine ⟨h1, by simp, ?_⟩
              intro x hx
              simp only [List.mem_map] at hx
              obtain ⟨r, hr, rfl⟩ := hx
              simp only [List.map_cons, List.map_nil, List.mem_singleton]
              intro hq
              exact hmem (hq ▸ h2 r hr)
            have h2' : ∀ r ∈ records ++ [TextBatchRecord.mk pdf_hash pages_text now],
                r.sha256 ∈ pdf_hash :: processed_ids := by
              intro r hr
              rcases List.mem_append.mp hr with hr | hr
              · exact List.mem_cons_of_mem _ (h2 r hr)
              · simp only [List.mem_singleton] at hr
                subst hr
                exact List.mem_cons_self _ _
            obtain ⟨ha, hb⟩ := ih (pdf_hash :: processed_ids)
              (records ++ [TextBatchRecord.mk pdf_hash pages_text now])
              (processed_count + 1) h1' h2'
            refine ⟨ha, ?_⟩
            intro r hr
            rcases hb r hr with hr' | hr'
            · rcases List.mem_append.mp hr' with hr'' | hr''
              · exact Or.inl hr''
              · simp only [List.mem_singleton] at hr''
                subst hr''
                exact Or.inr hmem
            · exact Or.inr (fun hc => hr' (List.mem_cons_of_mem _ hc))

/-- The dedup invariant of the specification: the union of the (readable)
batch files contains at most one record per sha256 content hash. -/
def batch_dedup_invariant (batches : BatchStore) : Prop :=
  ((allBatchRecords batches).map (fun r => r.sha256)).Nodup

instance (batches : BatchStore) : Decidable (batch_dedup_invariant batches) := by
  unfold batch_dedup_invariant
  infer_instance

/-- C2: starting from a batch store satisfying the dedup invariant with every
previously written batch file readable, an invocation of `process_directory`
preserves the invariant — each candidate hash is checked against the set
drawn from all pre-existing batch files, and a hash met twice in the same
invocation is recorded only once — and it appends at most one new batch file
to the store, none when the new-record list is empty. -/
theorem process_directory_dedup (hashF : String → Option String)
    (extractF : String → Option (List String)) (now : String)
    (batches : BatchStore) (pdf_files : List String) (limit : Option Nat)
    (_hread : ∀ b ∈ batches, b ≠ none)
    (hinv : batch_dedup_invariant batches) :
    batch_dedup_invariant
      (process_directory hashF extractF now batches pdf_files limit) ∧
    (process_directory hashF extractF now batches pdf_files limit = batches ∨
     ∃ recs, recs ≠ [] ∧
       process_directory hashF extractF now batches pdf_files limit =
         batches ++ [some recs]) := by
  unfold process_directory
  by_cases hzero : (match limit with
      | some n => min (pdf_files.countP (fun p =>
          match hashF p with
          | some h => decide (h ∉ load_processed_ids batches)
          | none => true)) n
      | none => pdf_files.countP (fun p =>
          match hashF p with
          | some h => decide (h ∉ load_processed_ids batches)
          | none => true)) = 0
  · rw [if_pos hzero]
    exact ⟨hinv, Or.inl rfl⟩
  · rw [if_neg hzero]
    set records := process_loop hashF extractF now limit
      (List.insertionSort (fun a b : String => pyStrLE a b = true) pdf_files)
      (load_processed_ids batches) [] 0 with hrec
    by_cases hempty : records = []
    · rw [if_pos hempty]
      exact ⟨hinv, Or.inl rfl⟩
    · rw [if_neg hempty]
      obtain ⟨hnd, hfresh⟩ := process_loop_inv hashF extractF now limit
        (List.insertionSort (fun a b : String => pyStrLE a b = true) pdf_files)
        (load_processed_ids batches) [] 0 (by simp) (by simp)
      refine ⟨?_, Or.inr ⟨records, hempty, rfl⟩⟩
      unfold batch_dedup_invariant at hinv ⊢
      have happ : allBatchRecords (batches ++ [some records]) =
          allBatchRecords batches ++ records := by
        simp [allBatchRecords, List.filterMap_append, List.flatten_append]
      rw [happ, List.map_append, List.nodup_append]
      refine ⟨hinv, hnd, ?_⟩
      intro x hx
      simp only [List.mem_map] at hx ⊢
      obtain ⟨r, hr, rfl⟩ := hx
      rintro ⟨r', hr', heq⟩
      rcases hfresh r' hr' with hfalse | hnotin
      · simp at hfalse
      · apply hnotin
        rw [mem_load_processed_ids]
        exact ⟨r, hr, heq.symm⟩

/-- Hash collaborator for the extraction witness: `b.pdf` and `c.pdf` are
byte-identical files, `a.pdf` was already captured in an earlier batch. -/
def witHashF : String → Option String :=
  fun p => if p == "a.pdf" then some "abc123"
    else if p == "b.pdf" then some "ff01"
    else if p == "c.pdf" then some "ff01" else none

/-- Extraction collaborator for the witness: one page of text. -/
def witExtractF : String → Option (List String) := fun _ => some ["text"]

/-- Existing batch store for the witness. -/
def witBatches : BatchStore := [some [batchRecA1]]

theorem process_directory_dedup_witness :
    (∀ b ∈ witBatches, b ≠ none) ∧
    batch_dedup_invariant witBatches ∧
    batch_dedup_invariant (process_directory witHashF witExtractF "now" witBatches
      ["a.pdf", "b.pdf", "c.pdf"] none) ∧
    process_directory witHashF witExtractF "now" witBatches
        ["a.pdf", "b.pdf", "c.pdf"] none =
      witBatches ++ [some [TextBatchRecord.mk "ff01" ["text"] "now"]] := by
  refine ⟨by decide, by decide, ?_, by decide⟩
  exact (process_directory_dedup witHashF witExtractF "now" witBatches
    ["a.pdf", "b.pdf", "c.pdf"] none (by decide) (by decide)).1

/-- The baseline column schema (`default_fields`) of `write_csv_rows`. -/
def default_fields : List String :=
  ["generated_filename", "agency_name", "agency_id", "FileExtension", "CreatedDate", "Title",
   "ContentBodyId", "Id", "ContentDocumentId", "downloaded_filename", "downloaded_path",
   "sha256", "downloaded_at_utc", "download_status", "id_match_checked"]

/-- One step of fieldname collection: append the key when it is kept (for row
keys, non-empty; for baseline columns, always) and not yet present. -/
def addField (keep : String → Bool) (acc : List String) (k : String) : List String :=
  if keep k ∧ k ∉ acc then acc ++ [k] else acc

/-- The fieldname computation of `write_csv_rows`: every non-empty key of
every row in first-seen order, then any baseline column not yet present. -/
def csv_fieldnames (rows : List Row) : List String :=
  let fromRows := rows.foldl (fun acc r =>
    (r.map (fun p => p.1)).foldl (addField (fun k => !(k == ""))) acc) []
  default_fields.foldl (addField (fun _ => true)) fromRows

/-- A CSV file, at the row/cell level of abstraction (the byte-level
encoding and quoting of the `csv` module is the external format): the header
and the table of cell values, one list per data row. -/
structure CsvFile where
  header : List String
  table : List (List String)
deriving DecidableEq

/-- Model of `write_csv_rows` in `run_full_pipeline.py`: compute the fieldnames and
write, for every row, the cell `row.get(k, "")` for each fieldname `k`. -/
def write_csv_rows (rows : List Row) : CsvFile :=
  let fieldnames := csv_fieldnames rows
  { header := fieldnames,
    table := rows.map (fun r => fieldnames.map (fun k => rowGet r k)) }

/-- Model of `load_csv_rows` in `run_full_pipeline.py`: an absent file yields the empty
list; otherwise `csv.DictReader` zips the header with each data row. -/
def load_csv_rows : Option CsvFile → List Row
  | none => []
  | some f => f.table.map (fun vals => f.header.zip vals)

theorem addField_fold_nodup (keep : String → Bool) (l : List String)
    (acc : List String) (h : acc.Nodup) : (l.foldl (addField keep) acc).Nodup := by
  induction l generalizing acc with
  | nil => exact h
  | cons x l ih =>
    rw [List.foldl_cons]
    apply ih
    unfold addField
    by_cases hx : keep x ∧ x ∉ acc
    · rw [if_pos hx]
      simp [List.nodup_append, h, hx.2]
    · rw [if_neg hx]
      exact h

theorem addField_fold_mem_mono (keep : String → Bool) (l : List String)
    (acc : List String) (k : String) (h : k ∈ acc) : k ∈ l.foldl (addField keep) acc := by
  induction l generalizing acc with
  | nil => exact h
  | cons x l ih =>
    rw [List.foldl_cons]
    apply ih
    unfold addField
    by_cases hx : keep x ∧ x ∉ acc
    · rw [if_pos hx]
      exact List.mem_append_left _ h
    · rw [if_neg hx]
      exact h

theorem addField_fold_mem_of_mem (keep : String → Bool) (l : List String)
    (acc : List String) (k : String) (hk : k ∈ l) (hkeep : keep k = true) :
    k ∈ l.foldl (addField keep) acc := by
  induction l generalizing acc with
  | nil => simp at hk
  | cons x l ih =>
    rw [List.foldl_cons]
    rcases List.mem_cons.mp hk with rfl | hk'
    · by_cases hacc : k ∈ acc
      · exact addField_fold_mem_mono keep l _ k (by unfold addField; split <;> simp [hacc])
      · apply addField_fold_mem_mono keep l _ k
        unfold addField
        rw [if_pos ⟨hkeep, hacc⟩]
        simp
    · exact ih _ hk'

theorem csv_fieldnames_nodup (rows : List Row) : (csv_fieldnames rows).Nodup := by
  unfold csv_fieldnames
  apply addField_fold_nodup
  suffices hgen : ∀ acc : List String, acc.Nodup →
      (rows.foldl (fun acc r =>
        (r.map (fun p => p.1)).foldl (addField (fun k => !(k == ""))) acc) acc).Nodup from
    hgen [] List.nodup_nil
  induction rows with
  | nil => intro acc h; exact h
  | cons r rows ih =>
    intro acc h
    rw [List.foldl_cons]
    exact ih _ (addField_fold_nodup _ _ acc h)

theorem csv_fieldnames_mem_default (rows : List Row) (k : String)
    (hk : k ∈ default_fields) : k ∈ csv_fieldnames rows := by
  unfold csv_fieldnames
  exact addField_fold_mem_of_mem _ default_fields _ k hk rfl

theorem rowGet_zip_map (header : List String) (f : String → String) (k : String)
    (hk : k ∈ header) :
    rowGet (header.zip (header.map f)) k = f k := by
  induction header with
  | nil => simp at hk
  | cons h t ih =>
    rw [List.map_cons, List.zip_cons_cons]
    by_cases hh : h = k
    · subst hh
      simp [rowGet, dictGet?]
    · rw [show rowGet ((h, f h) :: t.zip (t.map f)) k = rowGet (t.zip (t.map f)) k from by
        simp [rowGet, dictGet?, hh]]
      rcases List.mem_cons.mp hk with h1 | h1
      · exact absurd h1.symm hh
      · exact ih h1

/-- C6: loading an absent file yields the empty row list, and writing any row
list via `write_csv_rows` then reading it back via `load_csv_rows` yields, for
each row, a row whose key fields (`ContentDocumentId`, `sha256`,
`downloaded_path`) are byte-equal to the saved values. -/
theorem csv_round_trip :
    load_csv_rows none = [] ∧
    (∀ rows : List Row, ∀ i : Nat, ∀ hi : i < rows.length, ∀ k : String,
      k ∈ ["ContentDocumentId", "sha256", "downloaded_path"] →
      ∃ r, (load_csv_rows (some (write_csv_rows rows)))[i]? = some r ∧
        rowGet r k = rowGet (rows.get ⟨i, hi⟩) k) := by
  refine ⟨rfl, ?_⟩
  intro rows i hi k hk
  refine ⟨(csv_fieldnames rows).zip
    ((csv_fieldnames rows).map (fun kk => rowGet (rows.get ⟨i, hi⟩) kk)), ?_, ?_⟩
  · simp [load_csv_rows, write_csv_rows, List.getElem?_eq_getElem hi]
  · rw [rowGet_zip_map]
    apply csv_fieldnames_mem_default
    rcases List.mem_cons.mp hk with rfl | hk'
    · decide
    rcases List.mem_cons.mp hk' with rfl | hk''
    · decide
    rcases List.mem_cons.mp hk'' with rfl | hk'''
    · decide
    · simp at hk'''

/-- A concrete row list for the round-trip witness, with an enrichment column
outside the baseline schema. -/
def csvWitRows : List Row :=
  [[("ContentDocumentId", "D1"), ("sha256", "abc"),
    ("downloaded_path", "/x/a.pdf"), ("extra_col", "v")]]

theorem csv_round_trip_witness :
    load_csv_rows none = [] ∧
    (0 : Nat) < csvWitRows.length ∧
    "sha256" ∈ ["ContentDocumentId", "sha256", "downloaded_path"] ∧
    ∃ r, (load_csv_rows (some (write_csv_rows csvWitRows)))[0]? = some r ∧
      rowGet r "sha256" = rowGet (csvWitRows.get ⟨0, by decide⟩) "sha256" :=
  ⟨csv_round_trip.1, by decide, by decide,
   csv_round_trip.2 csvWitRows 0 (by decide) "sha256" (by decide)⟩

/-- The outcome of checking one sampled file in `spot_check`: a pass, a text
mismatch (with the stored and re-extracted page counts, and the differing
0-based page positions when the counts agree), or an exception during the
check. -/
inductive SampleResult where
  | pass : SampleResult
  | mismatch (expectedPages gotPages : Nat) (differing : Option (List Nat)) : SampleResult
  | err : SampleResult
deriving DecidableEq

/-- The 0-based positions at which the stored and re-extracted page lists
differ, as enumerated by `zip(existing_text, pages_text)` (the log prints
them 1-based as `Page {i+1}`). -/
def differing_pages (existing_text pages_text : List String) : List Nat :=
  (List.range (min existing_text.length pages_text.length)).filter
    (fun i => decide (existing_text.getD i "" ≠ pages_text.getD i ""))

/-- The per-sample body of the `spot_check` loop in `extract_pdf_text.py`:
`none` re-extraction models an exception (logged as ERROR and counted as a
failure); otherwise the texts are compared, and on mismatch the differing
page positions are computed exactly when the page counts agree. -/
def check_sample (existing_text : List String) (reextracted : Option (List String)) :
    SampleResult :=
  match reextracted with
  | none => SampleResult.err
  | some pages_text =>
    if pages_text = existing_text then SampleResult.pass
    else SampleResult.mismatch existing_text.length pages_text.length
      (if pages_text.length = existing_text.length
       then some (differing_pages existing_text pages_text) else none)

/-- The counting loop of `spot_check`, over the sampled files as pairs of
(stored record text, re-extraction result): every sample is checked, a
failure does not stop the loop. -/
def spot_check_loop : List (List String × Option (List String)) → Nat → Nat → Nat × Nat
  | [], passed, failed => (passed, failed)
  | s :: rest, passed, failed =>
    match check_sample s.1 s.2 with
    | SampleResult.pass => spot_check_loop rest (passed + 1) failed
    | _ => spot_check_loop rest passed (failed + 1)

/-- Model of `spot_check` in `extract_pdf_text.py`, as its observable outcome on the
sampled files: the pass count, the fail count, and whether the process exits
with a failure signal (`sys.exit(1)` exactly when `failed != 0`). -/
def spot_check (samples : List (List String × Option (List String))) : Nat × Nat × Bool :=
  let counts := spot_check_loop samples 0 0
  (counts.1, counts.2, counts.2 != 0)

theorem spot_check_loop_counts (samples : List (List String × Option (List String)))
    (p f : Nat) :
    spot_check_loop samples p f =
      (p + samples.countP (fun s => decide (check_sample s.1 s.2 = SampleResult.pass)),
       f + samples.countP (fun s => !(decide (check_sample s.1 s.2 = SampleResult.pass)))) := by
  induction samples generalizing p f with
  | nil => simp [spot_check_loop]
  | cons s rest ih =>
    rw [show spot_check_loop (s :: rest) p f =
      (match check_sample s.1 s.2 with
       | SampleResult.pass => spot_check_loop rest (p + 1) f
       | _ => spot_check_loop rest p (f + 1)) from rfl]
    cases hcs : check_sample s.1 s.2 with
    | pass =>
      simp only [ih, List.countP_cons, hcs, Prod.mk.injEq]
      constructor <;> (simp; try omega)
    | mismatch e g d =>
      simp only [ih, List.countP_cons, hcs, Prod.mk.injEq]
      constructor <;> (simp; try omega)
    | err =>
      simp only [ih, List.countP_cons, hcs, Prod.mk.injEq]
      constructor <;> (simp; try omega)

theorem mem_differing_pages (existing_text pages_text : List String)
    (hlen : pages_text.length = existing_text.length) (i : Nat) :
    i ∈ differing_pages existing_text pages_text ↔
      i < existing_text.length ∧ existing_text.getD i "" ≠ pages_text.getD i "" := by
  rw [differing_pages, List.mem_filter, List.mem_range, hlen, Nat.min_self]
  simp

theorem differing_pages_ne_nil (existing_text pages_text : List String)
    (hne : pages_text ≠ existing_text) (hlen : pages_text.length = existing_text.length) :
    differing_pages existing_text pages_text ≠ [] := by
  intro hnil
  apply hne
  apply List.ext_getElem hlen
  intro n h1 h2
  by_contra hb
  have hmem : n ∈ differing_pages existing_text pages_text := by
    rw [differing_pages, List.mem_filter, List.mem_range]
    refine ⟨by omega, ?_⟩
    rw [List.getD_eq_getElem _ _ h2, List.getD_eq_getElem _ _ h1]
    simp only [decide_eq_true_eq]
    intro hh
    exact hb hh.symm
  rw [hnil] at hmem
  simp at hmem

/-- C7: a spot-check run exits with a failure signal iff at least one sampled
file fails comparison or errors; a failing sample does not stop the remaining
samples from being checked, so the pass and fail counts always sum to the
sample count; and on a text mismatch the specific differing page positions
are reported exactly when the stored and re-extracted page counts are equal —
they are then non-empty and are precisely the positions whose page text
differs — while on unequal counts only the count mismatch is reported. -/
theorem spot_check_semantics :
    (∀ samples,
      ((spot_check samples).2.2 = true ↔
        ∃ s ∈ samples, check_sample s.1 s.2 ≠ SampleResult.pass) ∧
      (spot_check samples).1 + (spot_check samples).2.1 = samples.length) ∧
    (∀ existing_text pages_text : List String, ∀ l : List Nat,
      pages_text ≠ existing_text →
      check_sample existing_text (some pages_text) =
        SampleResult.mismatch existing_text.length pages_text.length (some l) →
      pages_text.length = existing_text.length ∧ l ≠ [] ∧
      (∀ i, i ∈ l ↔ i < existing_text.length ∧
        existing_text.getD i "" ≠ pages_text.getD i "")) ∧
    (∀ existing_text pages_text : List String, pages_text ≠ existing_text →
      pages_text.length = existing_text.length →
      check_sample existing_text (some pages_text) =
        SampleResult.mismatch existing_text.length pages_text.length
          (some (differing_pages existing_text pages_text))) ∧
    (∀ existing_text pages_text : List String, pages_text ≠ existing_text →
      pages_text.length ≠ existing_text.length →
      check_sample existing_text (some pages_text) =
        SampleResult.mismatch existing_text.length pages_text.length none) ∧
    (∀ existing_text : List String, check_sample existing_text none = SampleResult.err) := by
  refine ⟨?_, ?_, ?_, ?_, fun existing_text => rfl⟩
  · intro samples
    have hloop := spot_check_loop_counts samples 0 0
    have hs : spot_check samples =
        (samples.countP (fun s => decide (check_sample s.1 s.2 = SampleResult.pass)),
         samples.countP (fun s => !(decide (check_sample s.1 s.2 = SampleResult.pass))),
         (samples.countP (fun s => !(decide (check_sample s.1 s.2 = SampleResult.pass)))) != 0) := by
      rw [spot_check, hloop]
      simp
    constructor
    · rw [hs]
      simp only [bne_iff_ne, ne_eq]
      constructor
      · intro hnz
        by_contra hall
        push_neg at hall
        apply hnz
        rw [List.countP_eq_zero]
        intro s hsmem
        simp only [Bool.not_eq_true', decide_eq_false_iff_not, not_not]
        exact hall s hsmem
      · rintro ⟨s, hsmem, hsne⟩ hz
        rw [List.countP_eq_zero] at hz
        have := hz s hsmem
        simp only [Bool.not_eq_true', decide_eq_false_iff_not, not_not] at this
        exact hsne this
    · rw [hs]
      simp only []
      have := List.length_eq_countP_add_countP
        (fun s : List String × Option (List String) =>
          decide (check_sample s.1 s.2 = SampleResult.pass)) samples
      rw [this]
      congr 1
      apply List.countP_congr
      intro s _
      simp
  · intro existing_text pages_text l hne heq
    rw [check_sample, if_neg hne] at heq
    simp only [SampleResult.mismatch.injEq] at heq
    by_cases hlen : pages_text.length = existing_text.length
    · rw [if_pos hlen] at heq
      have hl : differing_pages existing_text pages_text = l := by
        simpa using heq.2.2
      refine ⟨hlen, ?_, ?_⟩
      · rw [← hl]
        exact differing_pages_ne_nil existing_text pages_text hne hlen
      · intro i
        rw [← hl]
        exact mem_differing_pages existing_text pages_text hlen i
    · rw [if_neg hlen] at heq
      exact absurd heq.2.2 (by simp)
  · intro existing_text pages_text hne hlen
    rw [check_sample, if_neg hne, if_pos hlen]
  · intro existing_text pages_text hne hlen
    rw [check_sample, if_neg hne, if_neg hlen]

/-- Samples for the spot-check witness: one passing file, one mismatching
file with equal page counts (page 1 differs, 0-based), one erroring file. -/
def spotSamples : List (List String × Option (List String)) :=
  [(["a"], some ["a"]), (["a", "b"], some ["a", "c"]), (["x"], none)]

theorem spot_check_semantics_witness :
    (spot_check spotSamples).2.2 = true ∧
    (spot_check spotSamples).1 + (spot_check spotSamples).2.1 = spotSamples.length ∧
    (["a", "c"] : List String) ≠ ["a", "b"] ∧
    check_sample ["a", "b"] (some ["a", "c"]) =
      SampleResult.mismatch 2 2 (some [1]) ∧
    ((1 : Nat) ∈ ([1] : List Nat) ↔
      1 < (["a", "b"] : List String).length ∧
      (["a", "b"] : List String).getD 1 "" ≠ (["a", "c"] : List String).getD 1 "") := by
  refine ⟨?_, (spot_check_semantics.1 spotSamples).2, by decide, by decide, ?_⟩
  · exact ((spot_check_semantics.1 spotSamples).1).mpr
      ⟨(["x"], none), by decide, by decide⟩
  · exact (spot_check_semantics.2.1 ["a", "b"] ["a", "c"] [1]
      (by decide) (by decide)).2.2 1

/-- The external collaborators of the discovery loop in `main`:
`get_content_details` models `get_content_details_method` (`none` is a falsy
result, the agency being skipped), `download_michigan_pdf` the file-fetch
collaborator (`none` is a failed download), and `parse_created_date_to_iso`
the `datetime.strptime`-based date normalisation. -/
structure Env where
  fs : FS
  get_content_details : String → Option (List Row)
  download_michigan_pdf : String → Option String → Option String → Option String →
    String → Option String
  parse_created_date_to_iso : String → Option String

/-- The in-run state of the discovery loop in `main`: the id-keyed metadata
index, the run-specific list of newly downloaded rows, and the count of
attempted new downloads. -/
structure DiscState where
  metadata_by_id : Dict Row
  new_rows : List Row
  attempted_new : Nat
deriving DecidableEq

/-- Model of `build_row` in `run_full_pipeline.py`: the metadata row of a newly
downloaded file, with `download_status = "downloaded"` and the current UTC
timestamp `now`. -/
def build_row (record : Row) (agency_name agency_id out_path sha256 now : String) : Row :=
  [("generated_filename", basename out_path),
   ("agency_name", agency_name),
   ("agency_id", agency_id),
   ("FileExtension", rowGet record "FileExtension"),
   ("CreatedDate", rowGet record "CreatedDate"),
   ("Title", rowGet record "Title"),
   ("ContentBodyId", rowGet record "ContentBodyId"),
   ("Id", rowGet record "Id"),
   ("ContentDocumentId", rowGet record "ContentDocumentId"),
   ("downloaded_filename", basename out_path),
   ("downloaded_path", out_path),
   ("sha256", sha256),
   ("downloaded_at_utc", now),
   ("download_status", "downloaded"),
   ("id_match_checked", "true")]

/-- The `args.limit is not None and len(new_rows) >= args.limit` test that
breaks both discovery loops. -/
def disc_limit_reached (limit : Option Nat) (st : DiscState) : Bool :=
  match limit with
  | some n => decide (st.new_rows.length ≥ n)
  | none => false

/-- The genuine-download tail of the per-content-item body in `main`:
increment the attempt counter, call the download collaborator, and on success
hash the file, build the new row, append it to the run output and register it
in the index. -/
def attempt_download (env : Env) (download_dir now agency_id agency_name : String)
    (record : Row) (content_document_id : String) (st : DiscState) : DiscState :=
  match env.download_michigan_pdf content_document_id
      (if agency_name = "" then none else some agency_name)
      (if rowGet record "Title" = "" then none else some (rowGet record "Title"))
      (env.parse_created_date_to_iso (rowGet record "CreatedDate")) download_dir with
  | none => { st with attempted_new := st.attempted_new + 1 }
  | some out_path =>
    { st with
      attempted_new := st.attempted_new + 1,
      new_rows := st.new_rows ++ [build_row record agency_name agency_id out_path
        (compute_sha256 env.fs out_path) now],
      metadata_by_id := dictInsert st.metadata_by_id content_document_id
        (build_row record agency_name agency_id out_path
          (compute_sha256 env.fs out_path) now) }

/-- The per-content-item body of the discovery loop in `main`: skip an empty
id; skip an existing record that already has a hash; repair an existing
hashless record from a resolvable local file (`backfilled_existing`, no
download); otherwise perform a genuine new download. A `metadata_by_id` entry
that is an empty dict is falsy in Python and treated as absent. -/
def process_record (env : Env) (download_dir now agency_id agency_name : String)
    (st : DiscState) (record : Row) : DiscState :=
  let content_document_id := pyStrip (rowGet record "ContentDocumentId")
  if content_document_id = "" then st
  else
    match dictGet? st.metadata_by_id content_document_id with
    | some existing =>
      if existing.isEmpty then
        attempt_download env download_dir now agency_id agency_name record
          content_document_id st
      else if pyStrip (rowGet existing "sha256") ≠ "" then st
      else
        match resolve_local_file_path env.fs existing download_dir with
        | some local_path =>
          let e1 := dictInsert existing "downloaded_path" local_path
          let e2 := dictInsert e1 "downloaded_filename" (basename local_path)
          let g := rowGet e2 "generated_filename"
          let e3 := dictInsert e2 "generated_filename"
            (if g = "" then basename local_path else g)
          let e4 := dictInsert e3 "sha256" (compute_sha256 env.fs local_path)
          let e5 := dictInsert e4 "download_status" "backfilled_existing"
          let e6 := dictInsert e5 "id_match_checked" "true"
          { st with metadata_by_id := dictInsert st.metadata_by_id content_document_id e6 }
        | none =>
          attempt_download env download_dir now agency_id agency_name record
            content_document_id st
    | none =>
      attempt_download env download_dir now agency_id agency_name record
        content_document_id st

/-- The `for record in records` loop of `main`, breaking as soon as the limit
is reached. -/
def content_loop (env : Env) (limit : Option Nat)
    (download_dir now agency_id agency_name : String) :
    List Row → DiscState → DiscState
  | [], st => st
  | record :: rest, st =>
    if disc_limit_reached limit st then st
    else content_loop env limit download_dir now agency_id agency_name rest
      (process_record env download_dir now agency_id agency_name st record)

/-- The `for agency in agency_list` loop of `main`: break when the limit is
reached, skip agencies without an id and agencies whose content listing
fails, and otherwise run the content loop. -/
def agency_loop (env : Env) (limit : Option Nat) (download_dir now : String) :
    List Row → DiscState → DiscState
  | [], st => st
  | agency :: rest, st =>
    if disc_limit_reached limit st then st
    else
      let agency_id := pyStrip (rowGet agency "agencyId")
      let agency_name := pyStrip (rowGet agency "AgencyName")
      if agency_id = "" then agency_loop env limit download_dir now rest st
      else
        match env.get_content_details agency_id with
        | none => agency_loop env limit download_dir now rest st
        | some records =>
          agency_loop env limit download_dir now rest
            (content_loop env limit download_dir now agency_id agency_name records st)

/-- The whole discovery/download pass of `main`, started on an empty run
output. -/
def run_discovery (env : Env) (limit : Option Nat) (download_dir now : String)
    (agency_list : List Row) (metadata_by_id : Dict Row) : DiscState :=
  agency_loop env limit download_dir now agency_list
    { metadata_by_id := metadata_by_id, new_rows := [], attempted_new := 0 }

/-- How many genuine successful downloads discovery would perform with no
limit: the number of discoverable-and-downloadable new documents, counted
against the evolving database state (backfill repairs do not add rows). -/
def discoverable_download_count (env : Env) (download_dir now : String)
    (agency_list : List Row) (metadata_by_id : Dict Row) : Nat :=
  (run_discovery env none download_dir now agency_list metadata_by_id).new_rows.length

theorem attempt_download_new_rows (env : Env)
    (download_dir now agency_id agency_name : String) (record : Row)
    (content_document_id : String) (st : DiscState) :
    (attempt_download env download_dir now agency_id agency_name record
        content_document_id st).new_rows = st.new_rows ∨
    ∃ row, (attempt_download env download_dir now agency_id agency_name record
        content_document_id st).new_rows = st.new_rows ++ [row] ∧
      rowGet row "download_status" = "downloaded" := by
  unfold attempt_download
  cases env.download_michigan_pdf content_document_id
      (if agency_name = "" then none else some agency_name)
      (if rowGet record "Title" = "" then none else some (rowGet record "Title"))
      (env.parse_created_date_to_iso (rowGet record "CreatedDate")) download_dir with
  | none => exact Or.inl rfl
  | some out_path =>
    exact Or.inr ⟨build_row record agency_name agency_id out_path
      (compute_sha256 env.fs out_path) now, rfl, rfl⟩

theorem process_record_new_rows (env : Env)
    (download_dir now agency_id agency_name : String)
    (st : DiscState) (record : Row) :
    (process_record env download_dir now agency_id agency_name st record).new_rows =
      st.new_rows ∨
    ∃ row, (process_record env download_dir now agency_id agency_name st record).new_rows =
      st.new_rows ++ [row] ∧ rowGet row "download_status" = "downloaded" := by
  unfold process_record
  by_cases hid : pyStrip (rowGet record "ContentDocumentId") = ""
  · rw [if_pos hid]
    exact Or.inl rfl
  · rw [if_neg hid]
    cases dictGet? st.metadata_by_id (pyStrip (rowGet record "ContentDocumentId")) with
    | none =>
      simp only []
      exact attempt_download_new_rows env download_dir now agency_id agency_name
        record (pyStrip (rowGet record "ContentDocumentId")) st
    | some existing =>
      simp only []
      by_cases hemp : existing.isEmpty
      · rw [if_pos hemp]
        exact attempt_download_new_rows env download_dir now agency_id agency_name
          record (pyStrip (rowGet record "ContentDocumentId")) st
      · rw [if_neg hemp]
        by_cases hsha : pyStrip (rowGet existing "sha256") ≠ ""
        · rw [if_pos hsha]
          exact Or.inl rfl
        · rw [if_neg hsha]
          cases resolve_local_file_path env.fs existing download_dir with
          | some local_path => exact Or.inl rfl
          | none =>
            exact attempt_download_new_rows env download_dir now agency_id
              agency_name record (pyStrip (rowGet record "ContentDocumentId")) st

theorem process_record_len (env : Env) (download_dir now agency_id agency_name : String)
    (st : DiscState) (record : Row) :
    st.new_rows.length ≤
      (process_record env download_dir now agency_id agency_name st record).new_rows.length ∧
    (process_record env download_dir now agency_id agency_name st record).new_rows.length ≤
      st.new_rows.length + 1 := by
  rcases process_record_new_rows env download_dir now agency_id agency_name st record with
    h | ⟨row, h, _⟩
  · rw [h]
    omega
  · rw [h]
    simp

theorem content_loop_cons (env : Env) (limit : Option Nat)
    (download_dir now agency_id agency_name : String) (record : Row) (rest : List Row)
    (st : DiscState) :
    content_loop env limit download_dir now agency_id agency_name (record :: rest) st =
      if disc_limit_reached limit st then st
      else content_loop env limit download_dir now agency_id agency_name rest
        (process_record env download_dir now agency_id agency_name st record) := rfl

theorem agency_loop_cons (env : Env) (limit : Option Nat) (download_dir now : String)
    (agency : Row) (rest : List Row) (st : DiscState) :
    agency_loop env limit download_dir now (agency :: rest) st =
      if disc_limit_reached limit st then st
      else
        if pyStrip (rowGet agency "agencyId") = "" then
          agency_loop env limit download_dir now rest st
        else
          match env.get_content_details (pyStrip (rowGet agency "agencyId")) with
          | none => agency_loop env limit download_dir now rest st
          | some records =>
            agency_loop env limit download_dir now rest
              (content_loop env limit download_dir now (pyStrip (rowGet agency "agencyId"))
                (pyStrip (rowGet agency "AgencyName")) records st) := rfl

theorem content_loop_of_reached (env : Env) (limit : Option Nat)
    (download_dir now agency_id agency_name : String) (records : List Row) (st : DiscState)
    (h : disc_limit_reached limit st = true) :
    content_loop env limit download_dir now agency_id agency_name records st = st := by
  cases records with
  | nil => rfl
  | cons record rest => rw [content_loop_cons, if_pos h]

theorem agency_loop_of_reached (env : Env) (limit : Option Nat)
    (download_dir now : String) (agency_list : List Row) (st : DiscState)
    (h : disc_limit_reached limit st = true) :
    agency_loop env limit download_dir now agency_list st = st := by
  cases agency_list with
  | nil => rfl
  | cons agency rest => rw [agency_loop_cons, if_pos h]

theorem content_loop_mono (env : Env) (limit : Option Nat)
    (download_dir now agency_id agency_name : String) (records : List Row) (st : DiscState) :
    st.new_rows.length ≤
      (content_loop env limit download_dir now agency_id agency_name records st).new_rows.length := by
  induction records generalizing st with
  | nil => exact Nat.le_refl _
  | cons record rest ih =>
    rw [content_loop_cons]
    by_cases hb : disc_limit_reached limit st = true
    · rw [if_pos hb]
    · rw [if_neg hb]
      exact Nat.le_trans
        (process_record_len env download_dir now agency_id agency_name st record).1 (ih _)

theorem agency_loop_mono (env : Env) (limit : Option Nat) (download_dir now : String)
    (agency_list : List Row) (st : DiscState) :
    st.new_rows.length ≤
      (agency_loop env limit download_dir now agency_list st).new_rows.length := by
  induction agency_list generalizing st with
  | nil => exact Nat.le_refl _
  | cons agency rest ih =>
    rw [agency_loop_cons]
    by_cases hb : disc_limit_reached limit st = true
    · rw [if_pos hb]
    · rw [if_neg hb]
      by_cases hid : pyStrip (rowGet agency "agencyId") = ""
      · rw [if_pos hid]
        exact ih st
      · rw [if_neg hid]
        cases env.get_content_details (pyStrip (rowGet agency "agencyId")) with
        | none => exact ih st
        | some records =>
          simp only []
          exact Nat.le_trans
            (content_loop_mono env limit download_dir now _ _ records st) (ih _)

theorem content_loop_le (env : Env) (N : Nat)
    (download_dir now agency_id agency_name : String) (records : List Row) (st : DiscState)
    (h : st.new_rows.length ≤ N) :
    (content_loop env (some N) download_dir now agency_id agency_name records
      st).new_rows.length ≤ N := by
  induction records generalizing st with
  | nil => exact h
  | cons record rest ih =>
    rw [content_loop_cons]
    by_cases hb : disc_limit_reached (some N) st = true
    · rw [if_pos hb]
      exact h
    · rw [if_neg hb]
      have hlt : st.new_rows.length < N := by
        simp only [disc_limit_reached, decide_eq_true_eq] at hb
        omega
      apply ih
      have := (process_record_len env download_dir now agency_id agency_name st record).2
      omega

theorem content_loop_min (env : Env) (N : Nat)
    (download_dir now agency_id agency_name : String) (records : List Row) (st : DiscState)
    (h : st.new_rows.length ≤ N) :
    (content_loop env (some N) download_dir now agency_id agency_name records
        st).new_rows.length =
      min N (content_loop env none download_dir now agency_id agency_name records
        st).new_rows.length := by
  induction records generalizing st with
  | nil =>
    simp only [content_loop]
    omega
  | cons record rest ih =>
    rw [content_loop_cons, content_loop_cons]
    by_cases hb : disc_limit_reached (some N) st = true
    · rw [if_pos hb]
      simp only [disc_limit_reached, decide_eq_true_eq] at hb
      have hmono := content_loop_mono env none download_dir now agency_id agency_name rest
        (process_record env download_dir now agency_id agency_name st record)
      have hpr := (process_record_len env download_dir now agency_id agency_name st record).1
      rw [if_neg (by simp [disc_limit_reached])]
      omega
    · rw [if_neg hb, if_neg (by simp [disc_limit_reached])]
      simp only [disc_limit_reached, decide_eq_true_eq] at hb
      apply ih
      have := (process_record_len env download_dir now agency_id agency_name st record).2
      omega

theorem content_loop_eq_of_lt (env : Env) (N : Nat)
    (download_dir now agency_id agency_name : String) (records : List Row) (st : DiscState)
    (h : (content_loop env (some N) download_dir now agency_id agency_name records
        st).new_rows.length < N) :
    content_loop env (some N) download_dir now agency_id agency_name records st =
      content_loop env none download_dir now agency_id agency_name records st := by
  induction records generalizing st with
  | nil => rfl
  | cons record rest ih =>
    rw [content_loop_cons] at h ⊢
    rw [content_loop_cons]
    by_cases hb : disc_limit_reached (some N) st = true
    · rw [if_pos hb] at h
      simp only [disc_limit_reached, decide_eq_true_eq] at hb
      omega
    · rw [if_neg hb] at h ⊢
      rw [if_neg (by simp [disc_limit_reached])]
      exact ih _ h

theorem agency_loop_min (env : Env) (N : Nat) (download_dir now : String)
    (agency_list : List Row) (st : DiscState) (h : st.new_rows.length ≤ N) :
    (agency_loop env (some N) download_dir now agency_list st).new_rows.length =
      min N (agency_loop env none download_dir now agency_list st).new_rows.length := by
  induction agency_list generalizing st with
  | nil =>
    simp only [agency_loop]
    omega
  | cons agency rest ih =>
    rw [agency_loop_cons, agency_loop_cons]
    by_cases hb : disc_limit_reached (some N) st = true
    · rw [if_pos hb]
      simp only [disc_limit_reached, decide_eq_true_eq] at hb
      rw [if_neg (by simp [disc_limit_reached])]
      by_cases hid : pyStrip (rowGet agency "agencyId") = ""
      · rw [if_pos hid]
        have := agency_loop_mono env none download_dir now rest st
        omega
      · rw [if_neg hid]
        cases env.get_content_details (pyStrip (rowGet agency "agencyId")) with
        | none =>
          simp only []
          have := agency_loop_mono env none download_dir now rest st
          omega
        | some records =>
          simp only []
          have h1 := content_loop_mono env none download_dir now
            (pyStrip (rowGet agency "agencyId")) (pyStrip (rowGet agency "AgencyName"))
            records st
          have h2 := agency_loop_mono env none download_dir now rest
            (content_loop env none download_dir now (pyStrip (rowGet agency "agencyId"))
              (pyStrip (rowGet agency "AgencyName")) records st)
          omega
    · have hnone : ¬ disc_limit_reached none st = true := by simp [disc_limit_reached]
      rw [if_neg hb, if_neg hnone]
      by_cases hid : pyStrip (rowGet agency "agencyId") = ""
      · rw [if_pos hid, if_pos hid]
        exact ih st h
      · rw [if_neg hid, if_neg hid]
        cases env.get_content_details (pyStrip (rowGet agency "agencyId")) with
        | none => exact ih st h
        | some records =>
          simp only []
          set aid := pyStrip (rowGet agency "agencyId")
          set aname := pyStrip (rowGet agency "AgencyName")
          set stL := content_loop env (some N) download_dir now aid aname records st with hstL
          set stU := content_loop env none download_dir now aid aname records st with hstU
          have hle : stL.new_rows.length ≤ N :=
            content_loop_le env N download_dir now aid aname records st h
          by_cases hlt : stL.new_rows.length < N
          · have heq : stL = stU := by
              rw [hstL, hstU]
              exact content_loop_eq_of_lt env N download_dir now aid aname records st
                (by rw [← hstL]; exact hlt)
            rw [← heq]
            exact ih stL hle
          · have hN : stL.new_rows.length = N := by omega
            have hreach : disc_limit_reached (some N) stL = true := by
              simp [disc_limit_reached, hN]
            rw [agency_loop_of_reached env (some N) download_dir now rest stL hreach]
            have hminN : min N stU.new_rows.length = N := by
              have := content_loop_min env N download_dir now aid aname records st h
              rw [← hstL, ← hstU] at this
              omega
            have hUmono := agency_loop_mono env none download_dir now rest stU
            omega

theorem content_loop_append (env : Env) (limit : Option Nat)
    (download_dir now agency_id agency_name : String) (records extra : List Row)
    (st : DiscState) :
    content_loop env limit download_dir now agency_id agency_name (records ++ extra) st =
      content_loop env limit download_dir now agency_id agency_name extra
        (content_loop env limit download_dir now agency_id agency_name records st) := by
  induction records generalizing st with
  | nil => rfl
  | cons record rest ih =>
    rw [List.cons_append, content_loop_cons, content_loop_cons]
    by_cases hb : disc_limit_reached limit st = true
    · rw [if_pos hb, if_pos hb]
      exact (content_loop_of_reached env limit download_dir now agency_id agency_name
        extra st hb).symm
    · rw [if_neg hb, if_neg hb]
      exact ih _

theorem agency_loop_append (env : Env) (limit : Option Nat) (download_dir now : String)
    (agency_list extra : List Row) (st : DiscState) :
    agency_loop env limit download_dir now (agency_list ++ extra) st =
      agency_loop env limit download_dir now extra
        (agency_loop env limit download_dir now agency_list st) := by
  induction agency_list generalizing st with
  | nil => rfl
  | cons agency rest ih =>
    rw [List.cons_append, agency_loop_cons, agency_loop_cons]
    by_cases hb : disc_limit_reached limit st = true
    · rw [if_pos hb, if_pos hb]
      exact (agency_loop_of_reached env limit download_dir now extra st hb).symm
    · rw [if_neg hb, if_neg hb]
      by_cases hid : pyStrip (rowGet agency "agencyId") = ""
      · rw [if_pos hid, if_pos hid]
        exact ih st
      · rw [if_neg hid, if_neg hid]
        cases env.get_content_details (pyStrip (rowGet agency "agencyId")) with
        | none => exact ih st
        | some records =>
          simp only []
          exact ih _

theorem content_loop_status (env : Env) (limit : Option Nat)
    (download_dir now agency_id agency_name : String) (records : List Row) (st : DiscState)
    (h : ∀ r ∈ st.new_rows, rowGet r "download_status" = "downloaded") :
    ∀ r ∈ (content_loop env limit download_dir now agency_id agency_name
      records st).new_rows, rowGet r "download_status" = "downloaded" := by
  induction records generalizing st with
  | nil => exact h
  | cons record rest ih =>
    rw [content_loop_cons]
    by_cases hb : disc_limit_reached limit st = true
    · rw [if_pos hb]
      exact h
    · rw [if_neg hb]
      apply ih
      rcases process_record_new_rows env download_dir now agency_id agency_name st record
        with heq | ⟨row, heq, hstat⟩
      · rw [heq]
        exact h
      · rw [heq]
        intro r hr
        rcases List.mem_append.mp hr with hr | hr
        · exact h r hr
        · simp only [List.mem_singleton] at hr
          subst hr
          exact hstat

theorem agency_loop_status (env : Env) (limit : Option Nat) (download_dir now : String)
    (agency_list : List Row) (st : DiscState)
    (h : ∀ r ∈ st.new_rows, rowGet r "download_status" = "downloaded") :
    ∀ r ∈ (agency_loop env limit download_dir now agency_list st).new_rows,
      rowGet r "download_status" = "downloaded" := by
  induction agency_list generalizing st with
  | nil => exact h
  | cons agency rest ih =>
    rw [agency_loop_cons]
    by_cases hb : disc_limit_reached limit st = true
    · rw [if_pos hb]
      exact h
    · rw [if_neg hb]
      by_cases hid : pyStrip (rowGet agency "agencyId") = ""
      · rw [if_pos hid]
        exact ih st h
      · rw [if_neg hid]
        cases env.get_content_details (pyStrip (rowGet agency "agencyId")) with
        | none => exact ih st h
        | some records =>
          simp only []
          exact ih _ (content_loop_status env limit download_dir now _ _ records st h)

/-- C1: given a limit N and at least N discoverable-and-downloadable new
documents (counted by the unlimited run, whose rows come only from genuine
successful downloads), the limited discovery pass performs exactly N genuine
downloads — its run-specific row list, and hence the run output file, has
exactly N rows; discovery stops as soon as the count reaches N: once the
limit is reached the content loop ignores all further content items, and
appending further agencies to the agency list leaves the entire run state
unchanged; and every row counted against the limit has
`download_status = "downloaded"`, so backfill repairs never count toward N. -/
theorem discovery_limit_semantics (env : Env) (download_dir now : String)
    (agency_list : List Row) (metadata_by_id : Dict Row) (N : Nat)
    (h : N ≤ discoverable_download_count env download_dir now agency_list metadata_by_id) :
    (run_discovery env (some N) download_dir now agency_list
        metadata_by_id).new_rows.length = N ∧
    (write_csv_rows (run_discovery env (some N) download_dir now agency_list
        metadata_by_id).new_rows).table.length = N ∧
    (∀ extra, run_discovery env (some N) download_dir now (agency_list ++ extra)
        metadata_by_id =
      run_discovery env (some N) download_dir now agency_list metadata_by_id) ∧
    (∀ agency_id agency_name records extra st,
      disc_limit_reached (some N)
          (content_loop env (some N) download_dir now agency_id agency_name records st) =
        true →
      content_loop env (some N) download_dir now agency_id agency_name
          (records ++ extra) st =
        content_loop env (some N) download_dir now agency_id agency_name records st) ∧
    (∀ r ∈ (run_discovery env (some N) download_dir now agency_list
        metadata_by_id).new_rows, rowGet r "download_status" = "downloaded") := by
  have hlen : (run_discovery env (some N) download_dir now agency_list
      metadata_by_id).new_rows.length = N := by
    unfold run_discovery
    rw [agency_loop_min env N download_dir now agency_list _ (by simp)]
    unfold discoverable_download_count run_discovery at h
    omega
  refine ⟨hlen, ?_, ?_, ?_, ?_⟩
  · simp [write_csv_rows, hlen]
  · intro extra
    unfold run_discovery
    rw [agency_loop_append]
    apply agency_loop_of_reached
    simp only [disc_limit_reached, decide_eq_true_eq]
    unfold run_discovery at hlen
    omega
  · intro agency_id agency_name records extra st hreach
    rw [content_loop_append]
    exact content_loop_of_reached env (some N) download_dir now agency_id agency_name
      extra _ hreach
  · unfold run_discovery
    exact agency_loop_status env (some N) download_dir now agency_list _ (by simp)

/-- The agency used by the discovery witness. -/
def witAgency : Row := [("agencyId", "AG1"), ("AgencyName", "Agency One")]

/-- First new discoverable document of the witness. -/
def witRec1 : Row := [("ContentDocumentId", "DOC10"), ("Title", "t1"), ("CreatedDate", "")]

/-- Second new discoverable document of the witness. -/
def witRec2 : Row := [("ContentDocumentId", "DOC11"), ("Title", "t2"), ("CreatedDate", "")]

/-- A concrete environment with one agency holding two downloadable new
documents; no local files exist, every download succeeds. -/
def witEnv : Env :=
  { fs := { pathExists := fun _ => false, sha256Hex := fun _ => "bb" },
    get_content_details := fun aid => if aid == "AG1" then some [witRec1, witRec2] else none,
    download_michigan_pdf := fun document_id _ _ _ _ => some ("dl/" ++ document_id ++ ".pdf"),
    parse_created_date_to_iso := fun _ => none }

theorem discovery_limit_semantics_witness :
    1 ≤ discoverable_download_count witEnv "dl" "now" [witAgency] [] ∧
    discoverable_download_count witEnv "dl" "now" [witAgency] [] = 2 ∧
    (run_discovery witEnv (some 1) "dl" "now" [witAgency] []).new_rows.length = 1 ∧
    (∀ extra, run_discovery witEnv (some 1) "dl" "now" ([witAgency] ++ extra) [] =
      run_discovery witEnv (some 1) "dl" "now" [witAgency] []) := by
  refine ⟨by decide, by decide,
    (discovery_limit_semantics witEnv "dl" "now" [witAgency] [] 1 (by decide)).1,
    (discovery_limit_semantics witEnv "dl" "now" [witAgency] [] 1 (by decide)).2.2.1⟩
